import Mathlib

/-!
# Verification of the CSE paged-search executor (`src/cse_executor.py`)

This file gives a shallow embedding of the core of the repository: the URL
normalizer, the domain/dedup helpers, the error classifier, the retry policy
and the paged search executor of `cse_executor.py`, together with proofs of
the specification claims about them.

Python strings are modelled as `List Char`.  The pieces of the Python
standard library that the source calls (`str.strip`, `str.lower`,
substring test `in`, and the `urllib.parse` functions `urlparse`,
`parse_qsl`, `urlencode`, `urlunparse`) are modelled character by character
from their CPython behaviour, since the source's behaviour on the claims
depends on them.  Effects that cannot influence the returned values
(logging, `time.sleep`, random jitter) are dropped; the injected search
backend is modelled as a pure function from `(start, num)` to a response,
and the executor additionally returns the trace of backend calls it makes
so that claims about call counts can be stated.
-/

namespace ThesisDork

/-- Python `str` modelled as a list of characters. -/
abbrev Str := List Char

/-- Characters removed by Python `str.strip()` (the ASCII whitespace set). -/
def isPyWs (c : Char) : Bool :=
  c = ' ' || c = '\t' || c = '\n' || c = '\r' || c = '\x0b' || c = '\x0c'

/-- Python `str.strip()`: drop leading and trailing whitespace. -/
def pyStrip (s : Str) : Str :=
  ((s.dropWhile isPyWs).reverse.dropWhile isPyWs).reverse

/-- Python `str.lower()` (ASCII case folding, which covers every character
the source ever compares against). -/
def lowerStr (s : Str) : Str := s.map Char.toLower

/-- Does the pattern match the front of the string? -/
def leadsWith : (s pat : Str) → Bool
  | _, [] => true
  | [], _ :: _ => false
  | c :: cs, p :: ps => c = p && leadsWith cs ps

/-- Python substring test `needle in hay`. -/
def strContains : (hay needle : Str) → Bool
  | [], needle => needle.isEmpty
  | hay@(_ :: t), needle => leadsWith hay needle || strContains t needle

/-! ## Model of `urllib.parse` (CPython 3.11)

`normalize_url` in the source delegates to `urlparse`, `parse_qsl`,
`urlencode` and `urlunparse`; their behaviour is modelled here character by
character from CPython 3.11 (the reference interpreter available while this
development was written).  Two deliberate simplifications, both irrelevant
to every theorem below: `str.lower` is ASCII case folding, and of the netloc
validations only the long-standing mismatched-square-bracket `ValueError`
(present in every Python 3 version) is modelled — the 3.11-only validation
of the text between balanced brackets and the non-ASCII NFKC check are
omitted, so the model's parser succeeds on a few inputs where a 3.11
interpreter would fall back to the stripped input. -/

/-- Characters legal in a URL scheme (CPython `scheme_chars`). -/
def schemeChar (c : Char) : Bool :=
  ('a' ≤ c && c ≤ 'z') || ('A' ≤ c && c ≤ 'Z') || ('0' ≤ c && c ≤ '9') ||
    c = '+' || c = '-' || c = '.'

/-- ASCII letter test (`url[0].isascii() and url[0].isalpha()`). -/
def isAsciiAlpha (c : Char) : Bool := ('a' ≤ c && c ≤ 'z') || ('A' ≤ c && c ≤ 'Z')

/-- WHATWG C0-control-or-space set, lstripped from the URL by `urlsplit`. -/
def isC0OrSpace (c : Char) : Bool := c.toNat ≤ 32

/-- Tab, CR and LF are removed from the URL by `urlsplit`
(`_UNSAFE_URL_BYTES_TO_REMOVE`). -/
def isUnsafeUrlChar (c : Char) : Bool := c = '\t' || c = '\r' || c = '\n'

/-- Delimiters ending the netloc part (`_splitnetloc` stops at `/?#`). -/
def netlocEnd (c : Char) : Bool := c = '/' || c = '?' || c = '#'

/-- Result of `urlparse`: the six URL components. -/
structure ParseResult where
  scheme : Str
  netloc : Str
  path : Str
  params : Str
  query : Str
  fragment : Str
deriving Repr, DecidableEq

/-- CPython `uses_params`: schemes for which `urlparse` splits `;params`
off the path. -/
def usesParams : List Str :=
  [[], "ftp".data, "hdl".data, "prospero".data, "http".data, "imap".data,
   "https".data, "shttp".data, "rtsp".data, "rtsps".data, "rtspu".data,
   "sip".data, "sips".data, "mms".data, "sftp".data, "tel".data]

/-- CPython `uses_netloc`: schemes for which `urlunsplit` materialises a
`//` authority marker. -/
def usesNetloc : List Str :=
  [[], "ftp".data, "http".data, "gopher".data, "nntp".data, "telnet".data,
   "imap".data, "wais".data, "file".data, "mms".data, "https".data,
   "shttp".data, "snews".data, "prospero".data, "rtsp".data, "rtsps".data,
   "rtspu".data, "rsync".data, "svn".data, "svn+ssh".data, "sftp".data,
   "nfs".data, "git".data, "git+ssh".data, "ws".data, "wss".data]

/-- The `<scheme>:` recognition step of `urlsplit`: if the text before the
first `:` is nonempty, starts with an ASCII letter and consists of scheme
characters, that prefix (lowercased) is the scheme. -/
def schemeSplit (url : Str) : Str × Str :=
  let pre := url.takeWhile (· ≠ ':')
  let rest := url.dropWhile (· ≠ ':')
  match rest with
  | [] => ([], url)
  | _ :: restTail =>
    match pre with
    | [] => ([], url)
    | c0 :: _ =>
      if isAsciiAlpha c0 && pre.all schemeChar then (lowerStr pre, restTail)
      else ([], url)

/-- CPython `urlsplit` (with `allow_fragments=True`): lstrip C0
controls/space, remove tab/CR/LF, recognise the scheme, the `//netloc`
(failing on mismatched square brackets), then split off fragment and
query.  `none` models the `ValueError` raise. -/
def urlsplit (url0 : Str) : Option ParseResult :=
  let url1 := (url0.dropWhile isC0OrSpace).filter (fun c => !isUnsafeUrlChar c)
  let (scheme, url2) := schemeSplit url1
  if leadsWith url2 "//".data then
    let after := url2.drop 2
    let netloc := after.takeWhile (fun c => !netlocEnd c)
    let url3 := after.dropWhile (fun c => !netlocEnd c)
    if ('[' ∈ netloc && ']' ∉ netloc) || (']' ∈ netloc && '[' ∉ netloc) then
      none
    else
      let url4 := url3.takeWhile (· ≠ '#')
      let fragment := (url3.dropWhile (· ≠ '#')).tail
      let path := url4.takeWhile (· ≠ '?')
      let query := (url4.dropWhile (· ≠ '?')).tail
      some ⟨scheme, netloc, path, [], query, fragment⟩
  else
    let url4 := url2.takeWhile (· ≠ '#')
    let fragment := (url2.dropWhile (· ≠ '#')).tail
    let path := url4.takeWhile (· ≠ '?')
    let query := (url4.dropWhile (· ≠ '?')).tail
    some ⟨scheme, [], path, [], query, fragment⟩

/-- CPython `_splitparams`: split `;params` off the last path segment. -/
def splitParams (p : Str) : Str × Str :=
  if '/' ∈ p then
    let afterSlash := (p.reverse.takeWhile (· ≠ '/')).reverse
    if ';' ∈ afterSlash then
      let before := (p.reverse.dropWhile (· ≠ '/')).reverse
      (before ++ afterSlash.takeWhile (· ≠ ';'),
        (afterSlash.dropWhile (· ≠ ';')).tail)
    else (p, [])
  else (p.takeWhile (· ≠ ';'), (p.dropWhile (· ≠ ';')).tail)

/-- CPython `urlparse`: `urlsplit` plus the params split (only for schemes
in `uses_params`). -/
def urlparse (url : Str) : Option ParseResult :=
  (urlsplit url).map fun r =>
    if r.scheme ∈ usesParams && ';' ∈ r.path then
      let pp := splitParams r.path
      { r with path := pp.1, params := pp.2 }
    else r

/-- CPython `urlunsplit` (3.11 form of the authority-marker condition). -/
def urlunsplit (scheme netloc path query fragment : Str) : Str :=
  let url :=
    if netloc ≠ [] ||
        (scheme ≠ [] && decide (scheme ∈ usesNetloc) && !leadsWith path "//".data) then
      let url1 := if path ≠ [] && !leadsWith path "/".data then '/' :: path else path
      '/' :: '/' :: (netloc ++ url1)
    else path
  let url := if scheme ≠ [] then scheme ++ ':' :: url else url
  let url := if query ≠ [] then url ++ '?' :: query else url
  if fragment ≠ [] then url ++ '#' :: fragment else url

/-- CPython `urlunparse`: rejoin `;params` to the path, then `urlunsplit`. -/
def urlunparse (scheme netloc path params query fragment : Str) : Str :=
  urlunsplit scheme netloc (if params ≠ [] then path ++ ';' :: params else path)
    query fragment

/-! ### Percent-coding (`quote_plus` / `unquote`) -/

/-- Value of a hex digit, if it is one (CPython's `_hextobyte` table covers
`0123456789abcdefABCDEF`; codes 48-57, 97-102 and 65-70). -/
def hexVal (c : Char) : Option Nat :=
  if 48 ≤ c.toNat && c.toNat ≤ 57 then some (c.toNat - 48)
  else if 97 ≤ c.toNat && c.toNat ≤ 102 then some (c.toNat - 87)
  else if 65 ≤ c.toNat && c.toNat ≤ 70 then some (c.toNat - 55)
  else none

/-- A token of the unquoting pass: a byte (from a `%XX` escape or a plain
ASCII character) or a non-ASCII character that passes through undecoded. -/
inductive UQTok where
  | byte (b : Nat)
  | raw (c : Char)
deriving Repr, DecidableEq

/-- Tokenise for `unquote`: `%XX` with two hex digits becomes a byte, a
stray `%` stays literal, ASCII characters become their byte, anything else
passes through as a character. -/
def uqTokens : Str → List UQTok
  | [] => []
  | c :: rest =>
    if c = '%' then
      match rest with
      | c1 :: c2 :: rest2 =>
        match hexVal c1, hexVal c2 with
        | some h1, some h2 => .byte (16 * h1 + h2) :: uqTokens rest2
        | _, _ => .byte 37 :: uqTokens (c1 :: c2 :: rest2)
      | [] => [.byte 37]
      | [c1] => .byte 37 :: uqTokens [c1]
    else (if c.toNat < 128 then .byte c.toNat else .raw c) :: uqTokens rest

/-- The U+FFFD replacement character used by `errors='replace'`. -/
def replChar : Char := '�'

/-- In-flight state of the UTF-8 decoder: number of continuation bytes
still needed, the accumulated scalar value, and the admissible range of the
next byte (tight on the first continuation to exclude overlong encodings
and surrogates, as CPython's strict-prefix `replace` decoder does). -/
structure Utf8State where
  need : Nat
  acc : Nat
  lo : Nat
  hi : Nat
deriving Repr, DecidableEq

/-- Classify a UTF-8 lead byte. -/
def leadState (b : Nat) : Option Utf8State :=
  if 0xC2 ≤ b && b ≤ 0xDF then some ⟨1, b - 0xC0, 0x80, 0xBF⟩
  else if b = 0xE0 then some ⟨2, 0, 0xA0, 0xBF⟩
  else if b = 0xED then some ⟨2, 0xD, 0x80, 0x9F⟩
  else if 0xE1 ≤ b && b ≤ 0xEF then some ⟨2, b - 0xE0, 0x80, 0xBF⟩
  else if b = 0xF0 then some ⟨3, 0, 0x90, 0xBF⟩
  else if b = 0xF4 then some ⟨3, 4, 0x80, 0x8F⟩
  else if 0xF1 ≤ b && b ≤ 0xF3 then some ⟨3, b - 0xF0, 0x80, 0xBF⟩
  else none

/-- UTF-8 decoding of the token stream with `errors='replace'` (maximal
valid subpart consumed per replacement, like CPython). -/
def uqDecode : Option Utf8State → List UQTok → Str
  | st, [] => if st.isSome then [replChar] else []
  | st, .raw c :: rest =>
    (if st.isSome then [replChar] else []) ++ (c :: uqDecode none rest)
  | none, .byte b :: rest =>
    if b < 128 then Char.ofNat b :: uqDecode none rest
    else
      match leadState b with
      | some s => uqDecode (some s) rest
      | none => replChar :: uqDecode none rest
  | some s, .byte b :: rest =>
    if s.lo ≤ b && b ≤ s.hi then
      let acc2 := s.acc * 64 + (b - 0x80)
      if s.need = 1 then Char.ofNat acc2 :: uqDecode none rest
      else uqDecode (some ⟨s.need - 1, acc2, 0x80, 0xBF⟩) rest
    else
      replChar ::
        (if b < 128 then Char.ofNat b :: uqDecode none rest
         else
           match leadState b with
           | some s2 => uqDecode (some s2) rest
           | none => replChar :: uqDecode none rest)

/-- CPython `unquote` with UTF-8/replace. -/
def unquote (s : Str) : Str := uqDecode none (uqTokens s)

/-- CPython `unquote_plus`-style step used by `parse_qsl`: replace `+` by
space, then unquote. -/
def unquotePlus (s : Str) : Str :=
  unquote (s.map fun c => if c = '+' then ' ' else c)

/-- CPython `parse_qsl(qs, keep_blank_values=True)`: split on `&`, skip
empty fields, split each field at the first `=` (a missing value becomes
the empty string), unquote names and values. -/
def parse_qsl (qs : Str) : List (Str × Str) :=
  if qs = [] then []
  else
    (qs.splitOn '&').filterMap fun nv =>
      match nv with
      | [] => none
      | _ :: _ =>
        let name := nv.takeWhile (· ≠ '=')
        let value := (nv.dropWhile (· ≠ '=')).tail
        some (unquotePlus name, unquotePlus value)

/-- ASCII alphanumeric or `_.-~`: the characters `quote` never escapes
(CPython `_ALWAYS_SAFE`). -/
def alwaysSafe (c : Char) : Bool :=
  ('a' ≤ c && c ≤ 'z') || ('A' ≤ c && c ≤ 'Z') || ('0' ≤ c && c ≤ '9') ||
    c = '_' || c = '.' || c = '-' || c = '~'

/-- UTF-8 encoding of a scalar value. -/
def utf8EncodeChar (n : Nat) : List Nat :=
  if n < 0x80 then [n]
  else if n < 0x800 then [0xC0 + n / 64, 0x80 + n % 64]
  else if n < 0x10000 then
    [0xE0 + n / 4096, 0x80 + (n / 64) % 64, 0x80 + n % 64]
  else
    [0xF0 + n / 262144, 0x80 + (n / 4096) % 64, 0x80 + (n / 64) % 64,
      0x80 + n % 64]

/-- Uppercase hex digit of a value below 16. -/
def hexDigitU (n : Nat) : Char :=
  if n < 10 then Char.ofNat ('0'.toNat + n) else Char.ofNat ('A'.toNat + n - 10)

/-- Percent-escape of one byte. -/
def pctEncodeByte (b : Nat) : Str := ['%', hexDigitU (b / 16), hexDigitU (b % 16)]

/-- CPython `quote_plus` with `safe=''`: safe characters pass, space
becomes `+`, everything else is percent-escaped byte-wise in UTF-8. -/
def quotePlusChar (c : Char) : Str :=
  if alwaysSafe c then [c]
  else if c = ' ' then ['+']
  else ((utf8EncodeChar c.toNat).map pctEncodeByte).flatten

/-- CPython `quote_plus` on a string. -/
def quotePlus (s : Str) : Str := (s.map quotePlusChar).flatten

/-- CPython `urlencode(q, doseq=True)` on a list of string pairs. -/
def urlencode (q : List (Str × Str)) : Str :=
  List.intercalate ['&'] (q.map fun kv => quotePlus kv.1 ++ '=' :: quotePlus kv.2)

/-! ## URL hygiene from the source (lines 21-69) -/

/-- The fixed set of tracking-parameter names removed by the normalizer. -/
def TRACKING_KEYS : List Str :=
  ["utm_source".data, "utm_medium".data, "utm_campaign".data, "utm_term".data,
   "utm_content".data, "gclid".data, "fbclid".data, "yclid".data,
   "mc_cid".data, "mc_eid".data]

/-- The function `normalize_url(raw)` from the source: strip, return empty
input unchanged, parse (falling back to the stripped input when the parse
raises), drop the fragment, filter tracking keys out of the query,
lowercase scheme and netloc, reassemble. -/
def normalize_url (raw0 : Str) : Str :=
  let raw := pyStrip raw0
  if raw = [] then raw
  else
    match urlparse raw with
    | none => raw
    | some u =>
      let q := (parse_qsl u.query).filter (fun kv => decide (kv.1 ∉ TRACKING_KEYS))
      let query := urlencode q
      let scheme := lowerStr u.scheme
      let netloc := lowerStr u.netloc
      urlunparse scheme netloc u.path u.params query []

/-- The final path segment (the text after the last `/`). -/
def afterLastSlash (p : Str) : Str := (p.reverse.takeWhile (· ≠ '/')).reverse

/-- Would this text be accepted as a scheme by `urlsplit`? -/
def schemeLike : Str → Bool
  | [] => false
  | pre@(c0 :: _) => isAsciiAlpha c0 && pre.all schemeChar

/-- Executable form of the one non-idempotent reassembly of `urlunsplit`:
an empty authority together with a path starting in `//` makes `urlunparse`
drop the `//` marker, so a reparse of the output shifts part of the path
into the netloc.  `true` means the input is free of that shape. -/
def noShiftInput (u : Str) : Bool :=
  match urlparse (pyStrip u) with
  | none => true
  | some c => c.netloc ≠ [] || !leadsWith c.path "//".data

/-- The shape invariants of URL components that `normalize_url` reassembles:
exactly what a successful parse of the stripped input establishes, after
the normalizer lowercases scheme and netloc, rewrites the query and drops
the fragment.  They are what makes the reassembled URL parse back to an
equivalent split. -/
structure GoodComps (c : ParseResult) : Prop where
  scheme_ok : c.scheme = [] ∨ (schemeLike c.scheme = true ∧ lowerStr c.scheme = c.scheme)
  netloc_clean : ∀ ch ∈ c.netloc, netlocEnd ch = false
  netloc_brackets : ('[' ∈ c.netloc) ↔ (']' ∈ c.netloc)
  netloc_lower : lowerStr c.netloc = c.netloc
  path_no_hash : '#' ∉ c.path
  path_no_q : '?' ∉ c.path
  path_slash : c.netloc ≠ [] → c.path = [] ∨ leadsWith c.path "/".data = true
  no_shift : ¬(c.netloc = [] ∧ leadsWith c.path "//".data = true)
  colon_ok : c.scheme = [] → c.netloc = [] → ':' ∈ c.path →
    schemeLike (c.path.takeWhile (· ≠ ':')) = false
  params_gate : c.params ≠ [] → c.scheme ∈ usesParams
  params_clean : ∀ ch ∈ c.params, ch ≠ '/' ∧ ch ≠ '?' ∧ ch ≠ '#'
  params_semi : c.scheme ∈ usesParams →
    (('/' ∈ c.path → ';' ∉ afterLastSlash c.path) ∧ ('/' ∉ c.path → ';' ∉ c.path))
  query_no_hash : '#' ∉ c.query
  query_no_q : '?' ∉ c.query
  query_fixed :
    urlencode ((parse_qsl c.query).filter (fun kv => decide (kv.1 ∉ TRACKING_KEYS))) = c.query
  frag_empty : c.fragment = []
  no_tabs : ∀ ch ∈ c.scheme ++ c.netloc ++ c.path ++ c.params ++ c.query,
    isUnsafeUrlChar ch = false
  head_ok : c.scheme = [] → c.netloc = [] → ∀ hne : c.path ≠ [],
    isC0OrSpace (c.path.head hne) = false

/-- One search-result record `{rank, title, url, snippet}` as built by the
executor (a Python dict with these four keys). -/
structure SearchItem where
  rank : Nat
  title : Str
  url : Str
  snippet : Str
deriving Repr, DecidableEq

/-- Worker of `dedup_results` (source lines 56-69, `key="url"` as used by
the executor): walk the list with the set of already-seen normalized URLs;
each record's url is rewritten to its normalized form, and a record is kept
exactly when that normalized url is nonempty and unseen. -/
def dedupGo (seen : List Str) : List SearchItem → List SearchItem
  | [] => []
  | it :: rest =>
    let val := normalize_url it.url
    if val = [] ∨ val ∈ seen then dedupGo seen rest
    else { it with url := val } :: dedupGo (val :: seen) rest

/-- The function `dedup_results(items, key="url")` from the source. -/
def dedup_results (items : List SearchItem) : List SearchItem := dedupGo [] items

/-- Spec-side deduplicator: after rewriting every url to its normalized
form, keep a record iff its url is nonempty and does not occur among the
urls of the records before it (first occurrence wins, order preserved). -/
def dedupSpecGo : List SearchItem → List SearchItem → List SearchItem
  | _, [] => []
  | pfx, it :: rest =>
    if it.url = [] ∨ it.url ∈ pfx.map SearchItem.url then
      dedupSpecGo (pfx ++ [it]) rest
    else it :: dedupSpecGo (pfx ++ [it]) rest

/-- Spec-side deduplicator on raw records. -/
def dedupSpec (items : List SearchItem) : List SearchItem :=
  dedupSpecGo [] (items.map fun it => { it with url := normalize_url it.url })

/-! ## Error classifier (`classify_cse_error`, src/cse_executor.py lines 110-128) -/

def ERR_MISSING_ENV : Str := "ERR_MISSING_ENV".data
def ERR_QUOTA_EXCEEDED : Str := "ERR_QUOTA_EXCEEDED".data
def ERR_INVALID_KEY : Str := "ERR_INVALID_KEY".data
def ERR_RATE_LIMIT : Str := "ERR_RATE_LIMIT".data
def ERR_TIMEOUT : Str := "ERR_TIMEOUT".data
def ERR_FORBIDDEN : Str := "ERR_FORBIDDEN".data
def ERR_UNKNOWN : Str := "ERR_UNKNOWN".data

/-- The if-chain of `classify_cse_error(message)` from the source, verbatim. -/
def classify_cse_error (message : Str) : Str :=
  let m := lowerStr message
  if strContains m "missing env".data || strContains m "membutuhkan env".data ||
      strContains m "required".data then ERR_MISSING_ENV
  else if strContains m "quota".data || strContains m "daily limit".data ||
      strContains m "limit exceeded".data then ERR_QUOTA_EXCEEDED
  else if strContains m "api key not valid".data || strContains m "invalid key".data ||
      strContains m "bad api key".data then ERR_INVALID_KEY
  else if strContains m "http 429".data || strContains m "too many requests".data ||
      strContains m "rate limit".data then ERR_RATE_LIMIT
  else if strContains m "timeout".data then ERR_TIMEOUT
  else if strContains m "http 403".data || strContains m "forbidden".data then ERR_FORBIDDEN
  else ERR_UNKNOWN

/-- Does the (already lowercased) message contain any of the given phrases? -/
def anyPhrase (m : Str) (ps : List Str) : Bool := ps.any (strContains m)

/-- First-match evaluation of an ordered list of `(predicate, kind)` rules;
falls through to `ERR_UNKNOWN`. -/
def firstMatchKind : List ((Str → Bool) × Str) → Str → Str
  | [], _ => ERR_UNKNOWN
  | (p, k) :: rules, m => if p m then k else firstMatchKind rules m

/-- The classifier's rules written as an ordered rule list, in the precedence
order the specification claims: missing-credentials, quota, invalid-key,
rate-limit, timeout, forbidden (then unknown). -/
def cseErrorRules : List ((Str → Bool) × Str) :=
  [ (fun m => anyPhrase m ["missing env".data, "membutuhkan env".data, "required".data],
      ERR_MISSING_ENV),
    (fun m => anyPhrase m ["quota".data, "daily limit".data, "limit exceeded".data],
      ERR_QUOTA_EXCEEDED),
    (fun m => anyPhrase m ["api key not valid".data, "invalid key".data, "bad api key".data],
      ERR_INVALID_KEY),
    (fun m => anyPhrase m ["http 429".data, "too many requests".data, "rate limit".data],
      ERR_RATE_LIMIT),
    (fun m => anyPhrase m ["timeout".data], ERR_TIMEOUT),
    (fun m => anyPhrase m ["http 403".data, "forbidden".data], ERR_FORBIDDEN) ]

/-- Spec-side classifier: evaluate the ordered rule list on the lowercased
message, first match wins. -/
def classifySpec (message : Str) : Str := firstMatchKind cseErrorRules (lowerStr message)

/-! ## Retry policy (`should_retry`, src/cse_executor.py lines 142-149) -/

/-- The function `should_retry(status_code, err_text)` from the source. -/
def should_retry (status : Option Nat) (errText : Str) : Bool :=
  if status = some 429 || status = some 500 || status = some 502 ||
      status = some 503 || status = some 504 then true
  else
    let et := lowerStr errText
    strContains et "timeout".data || strContains et "temporarily".data ||
      strContains et "connection".data

/-! ## Paged search executor (`cse_search_paged`, src/cse_executor.py lines 180-284)

The HTTP transport (`_cse_http_call` over a `requests.Session`) is the
injected collaborator: it is modelled as a pure function from
`(start, num)` to a `CseResponse`.  A 200 response carries the parsed
`items` list; a non-200 response carries the status and the error message
the source would extract from the JSON error body; `netFail` stands for a
raised `requests.Timeout`/`requests.ConnectionError`.  Sleeps, jitter and
logging do not influence any returned value and are dropped.  The executor
returns, besides the result (`Except` models the raised `RuntimeError`),
the trace of `(start, num)` backend calls in order, so that call-count
claims can be stated. -/

deriving instance DecidableEq for Except

/-- One raw item of a 200 response body (absent fields are `""`). -/
structure RawItem where
  title : Str
  link : Str
  snippet : Str
deriving Repr, DecidableEq

/-- A backend page response. -/
inductive CseResponse where
  | http (status : Nat) (errMsg : Str) (items : List RawItem)
  | netFail (msg : Str)

/-- Decimal rendering of a status code (for the `"HTTP {status}: {msg}"`
error text). -/
def natToStr (n : Nat) : Str := Nat.toDigits 10 n

/-- The f-string `"HTTP {status}: {msg}"`. -/
def httpErrStr (status : Nat) (msg : Str) : Str :=
  "HTTP ".data ++ natToStr status ++ ": ".data ++ msg

/-- The inner retry loop `for attempt in range(1, retries + 1)` around one
page fetch.  `left` is the number of iterations remaining (`retries` at
entry, so the loop body never runs when `retries = 0`, matching the empty
`range`).  On a 200 response the loop is left with the page's items —
whether or not the list is empty, since the source's empty-items `break`
and its normal `break` leave the `for` loop identically.  A non-200
response retries only while `should_retry` holds and attempts remain,
otherwise the error text is raised; a network fault retries until attempts
are exhausted. -/
def attemptLoop (backend : Nat → Nat → CseResponse) (retries start num : Nat) :
    Nat → Nat → List (Nat × Nat) → Except Str (List RawItem) × List (Nat × Nat)
  | _, 0, calls => (.ok [], calls)
  | attempt, left + 1, calls =>
    let calls2 := calls ++ [(start, num)]
    match backend start num with
    | .http status errMsg items =>
      if status ≠ 200 then
        let err := httpErrStr status errMsg
        if should_retry (some status) err && decide (attempt < retries) then
          attemptLoop backend retries start num (attempt + 1) left calls2
        else (.error err, calls2)
      else (.ok items, calls2)
    | .netFail msg =>
      if retries ≤ attempt then (.error ("Timeout/ConnError: ".data ++ msg), calls2)
      else attemptLoop backend retries start num (attempt + 1) left calls2

/-- Append one page's items as `{rank, title, url, snippet}` records with
consecutive ranks from `rank0`, stripping the text fields as the source
does. -/
def rankItems (rank0 : Nat) : List RawItem → List SearchItem
  | [] => []
  | it :: rest =>
    ⟨rank0, pyStrip it.title, pyStrip it.link, pyStrip it.snippet⟩ ::
      rankItems (rank0 + 1) rest

/-- The outer paging `while len(results) < total_results` loop.  `fuel`
bounds the number of iterations structurally: every iteration that recurses
does so with `start + 10 ≤ 91`, so from the initial `start = 1` at most ten
iterations are possible and the fuel of 10 supplied by `cse_search_paged`
is never exhausted (the fuel-zero branch is unreachable there). -/
def pagedGo (backend : Nat → Nat → CseResponse) (retries total : Nat) :
    Nat → List SearchItem → Nat → Nat → List (Nat × Nat) →
    Except Str (List SearchItem) × List (Nat × Nat)
  | 0, results, _, _, calls => (.ok results, calls)
  | fuel + 1, results, start, rank, calls =>
    if results.length < total then
      let num := min 10 (total - results.length)
      match attemptLoop backend retries start num 1 retries calls with
      | (.error e, calls2) => (.error e, calls2)
      | (.ok rawItems, calls2) =>
        let results2 := results ++ rankItems rank rawItems
        let rank2 := rank + rawItems.length
        let start2 := start + 10
        if total ≤ results2.length then (.ok results2, calls2)
        else if 91 < start2 then (.ok results2, calls2)
        else pagedGo backend retries total fuel results2 start2 rank2 calls2
    else (.ok results, calls)

/-- The function `cse_search_paged` from the source over an injected
backend: coerce `total_results` through `max(1, int(total_results))`, run
the paging loop from `start = 1`, `rank = 1`, and pass a successful run's
accumulated results through `dedup_results` keyed on the url. -/
def cse_search_paged (backend : Nat → Nat → CseResponse) (total_results : Int)
    (retries : Nat) : Except Str (List SearchItem) × List (Nat × Nat) :=
  let total := (max 1 total_results).toNat
  match pagedGo backend retries total 10 [] 1 1 [] with
  | (.ok results, calls) => (.ok (dedup_results results), calls)
  | (.error e, calls) => (.error e, calls)

/-! ### Concrete backends used by individual claims -/

/-- A raw item with fixed title and snippet and the given link. -/
def rawItem (u : Str) : RawItem := ⟨"t".data, u, "s".data⟩

/-- A backend whose every page is a 200 response with zero items. -/
def emptyBackend : Nat → Nat → CseResponse := fun _ _ => .http 200 [] []

/-- A backend returning ten items on the page at `start = 1` and five on
the page at `start = 11` (all fifteen links distinct). -/
def twoPageBackend : Nat → Nat → CseResponse := fun start _ =>
  if start = 1 then
    .http 200 []
      [rawItem "http://c/1".data, rawItem "http://c/2".data,
       rawItem "http://c/3".data, rawItem "http://c/4".data,
       rawItem "http://c/5".data, rawItem "http://c/6".data,
       rawItem "http://c/7".data, rawItem "http://c/8".data,
       rawItem "http://c/9".data, rawItem "http://c/10".data]
  else if start = 11 then
    .http 200 []
      [rawItem "http://d/1".data, rawItem "http://d/2".data,
       rawItem "http://d/3".data, rawItem "http://d/4".data,
       rawItem "http://d/5".data]
  else .http 200 [] []

/-- A backend returning five items at `start = 1`, zero items at
`start = 11`, five more at `start = 21` and nothing afterwards. -/
def middleEmptyBackend : Nat → Nat → CseResponse := fun start _ =>
  if start = 1 then
    .http 200 []
      [rawItem "http://a/1".data, rawItem "http://a/2".data,
       rawItem "http://a/3".data, rawItem "http://a/4".data,
       rawItem "http://a/5".data]
  else if start = 21 then
    .http 200 []
      [rawItem "http://b/1".data, rawItem "http://b/2".data,
       rawItem "http://b/3".data, rawItem "http://b/4".data,
       rawItem "http://b/5".data]
  else .http 200 [] []

/-- A backend returning two items at `start = 1` and nothing afterwards. -/
def smallBackend : Nat → Nat → CseResponse := fun start _ =>
  if start = 1 then
    .http 200 [] [rawItem "http://w/1".data, rawItem "http://w/2".data]
  else .http 200 [] []

/-- The two records `smallBackend` produces for `total_results = 2`. -/
def smallResultList : List SearchItem :=
  [⟨1, "t".data, "http://w/1".data, "s".data⟩,
   ⟨2, "t".data, "http://w/2".data, "s".data⟩]

end ThesisDork

namespace ThesisDork

/-- C5: the classifier is (extensionally) the first-match evaluation of the
ordered rule list missing-credentials, quota, invalid-key, rate-limit,
timeout, forbidden, unknown; in particular a message mentioning both a 403
and quota classifies as quota, a timeout message as timeout, and an
invalid-api-key message as invalid credentials.  (Determinism is immediate:
`classify_cse_error` is a function of the message text alone.) -/
theorem classify_precedence_order :
    (∀ m : Str, classify_cse_error m = classifySpec m) ∧
    classify_cse_error "HTTP 403: quota exceeded for today".data = ERR_QUOTA_EXCEEDED ∧
    classify_cse_error "Connection timeout after 20s".data = ERR_TIMEOUT ∧
    classify_cse_error "api key not valid".data = ERR_INVALID_KEY := by
  refine ⟨fun m => ?_, by decide, by decide, by decide⟩
  simp [classify_cse_error, classifySpec, cseErrorRules, firstMatchKind, anyPhrase,
    List.any, or_assoc]

/-- C10: any message whose lowercasing contains `"required"` is classified
`ERR_MISSING_ENV`, no matter what other phrases (quota, invalid key, rate
limit, timeout, forbidden) it also contains, because the missing-credentials
check is evaluated first. -/
theorem classify_required_wins (m : Str)
    (h : strContains (lowerStr m) "required".data = true) :
    classify_cse_error m = ERR_MISSING_ENV := by
  simp [classify_cse_error, h]

/-- Witness for C10 at a message that also contains quota, invalid-key,
rate-limit, timeout and forbidden phrases (and uses `"REQUIRED"` in upper
case, exercising the case-insensitivity). -/
theorem classify_required_wins_witness :
    classify_cse_error
      "API key REQUIRED; quota exceeded; invalid key; rate limit; timeout; forbidden".data =
      ERR_MISSING_ENV :=
  classify_required_wins _ (by decide)

/-- Counterexample to C2 as stated: `" http://[ "` makes the internal parse
raise (mismatched IPv6 bracket), and `normalize_url` returns the stripped
string `"http://["`, not the original whitespace-padded input. -/
theorem normalize_url_fallback_not_original :
    urlparse (pyStrip " http://[ ".data) = none ∧
    normalize_url " http://[ ".data = "http://[".data ∧
    "http://[".data ≠ " http://[ ".data := by
  refine ⟨by decide, by decide, by decide⟩

/-- C2 as amended: on any input whose (stripped) text fails to parse,
`normalize_url` returns the whitespace-stripped input — not the original
untrimmed string — and raises nothing (the model is a total function whose
fallback branch is exactly this equation). -/
theorem normalize_url_fallback (s : Str) (h : urlparse (pyStrip s) = none) :
    normalize_url s = pyStrip s := by
  unfold normalize_url
  by_cases he : pyStrip s = []
  · rw [he] at h
    exact absurd h (by decide)
  · simp [he, h]

/-- Witness for the amended C2 at the concrete failing input. -/
theorem normalize_url_fallback_witness :
    normalize_url " http://[ ".data = pyStrip " http://[ ".data :=
  normalize_url_fallback _ (by decide)

/-- The worker of `dedup_results` agrees with the spec-side prefix-based
deduplicator whenever the seen-set is exactly the set of nonempty urls of
the processed prefix. -/
theorem dedupGo_eq_spec (items : List SearchItem) :
    ∀ (seen : List Str) (pfx : List SearchItem),
      (∀ v, v ∈ seen ↔ (v ≠ [] ∧ v ∈ pfx.map SearchItem.url)) →
      dedupGo seen items =
        dedupSpecGo pfx (items.map fun it => { it with url := normalize_url it.url }) := by
  induction items with
  | nil => intro seen pfx _; simp [dedupGo, dedupSpecGo]
  | cons it rest ih =>
    intro seen pfx hinv
    simp only [List.map_cons, dedupGo, dedupSpecGo]
    have hcond : (normalize_url it.url = [] ∨ normalize_url it.url ∈ seen) ↔
        (normalize_url it.url = [] ∨
          normalize_url it.url ∈ pfx.map SearchItem.url) := by
      constructor
      · rintro (h | h)
        · exact Or.inl h
        · exact Or.inr ((hinv _).mp h).2
      · rintro (h | h)
        · exact Or.inl h
        · by_cases hz : normalize_url it.url = []
          · exact Or.inl hz
          · exact Or.inr ((hinv _).mpr ⟨hz, h⟩)
    have hmap : (pfx ++ [{ it with url := normalize_url it.url }]).map SearchItem.url =
        pfx.map SearchItem.url ++ [normalize_url it.url] := by
      simp
    by_cases h : normalize_url it.url = [] ∨ normalize_url it.url ∈ seen
    · rw [if_pos h, if_pos (hcond.mp h)]
      refine ih seen (pfx ++ [{ it with url := normalize_url it.url }]) ?_
      intro v
      rw [hinv v, hmap]
      simp only [List.mem_append, List.mem_cons, List.not_mem_nil, or_false]
      constructor
      · rintro ⟨hv, hm⟩; exact ⟨hv, Or.inl hm⟩
      · rintro ⟨hv, hm | hm⟩
        · exact ⟨hv, hm⟩
        · subst hm
          rcases h with h | h
          · exact absurd h hv
          · exact ⟨hv, ((hinv _).mp h).2⟩
    · rw [if_neg h, if_neg (fun hc => h (hcond.mpr hc))]
      push_neg at h
      congr 1
      refine ih (normalize_url it.url :: seen)
        (pfx ++ [{ it with url := normalize_url it.url }]) ?_
      intro v
      rw [hmap]
      simp only [List.mem_cons, List.mem_append, List.not_mem_nil, or_false, hinv v]
      constructor
      · rintro (hv | ⟨hv, hm⟩)
        · subst hv; exact ⟨h.1, Or.inr rfl⟩
        · exact ⟨hv, Or.inl hm⟩
      · rintro ⟨hv, hm | hm⟩
        · exact Or.inr ⟨hv, hm⟩
        · exact Or.inl hm

/-- C6: deduplication keyed on the url first rewrites every record's url to
its normalized form and then keeps exactly the records whose normalized url
is nonempty and not seen earlier — first occurrence wins, survivor order
preserved, empty keys dropped; and the two records with urls
`http://x/?utm_source=a` and `http://x/` collapse to the first one. -/
theorem dedup_results_characterization :
    (∀ items : List SearchItem, dedup_results items = dedupSpec items) ∧
    dedup_results
      [⟨1, "A".data, "http://x/?utm_source=a".data, "s1".data⟩,
       ⟨2, "B".data, "http://x/".data, "s2".data⟩] =
      [⟨1, "A".data, "http://x/".data, "s1".data⟩] := by
  constructor
  · intro items
    exact dedupGo_eq_spec items [] [] (by simp)
  · decide

/-- C1: divergence record.  Against a backend answering HTTP 200 with zero
items on every page, the run (`total_results = 10`, the default, and
`retries = 3`) terminates successfully with an empty result list and no
error — but it makes ten backend calls, at `start = 1, 11, …, 91`, not
exactly one: the source's empty-items `break` leaves only the inner retry
loop, so the outer paging loop keeps calling until the start-offset
ceiling. -/
theorem paged_empty_first_page_ten_calls :
    (cse_search_paged emptyBackend 10 3).1 = .ok [] ∧
    (cse_search_paged emptyBackend 10 3).2 =
      [(1, 10), (11, 10), (21, 10), (31, 10), (41, 10), (51, 10), (61, 10),
        (71, 10), (81, 10), (91, 10)] ∧
    (cse_search_paged emptyBackend 10 3).2.length ≠ 1 :=
  ⟨by decide, by decide, by decide⟩

/-- C3: divergence record.  With `total_results = 15` against a backend
giving five items at `start = 1`, zero items at `start = 11` and five more
at `start = 21`, the paging loop does not stop at the zero-item page: it
makes seven further calls after it and returns the five results collected
after the empty page (ranks 6–10) as well, for ten results from ten calls
— the claim's stop-on-empty-page rule predicts two calls and five
results. -/
theorem paged_zero_item_page_not_stopping :
    ((cse_search_paged middleEmptyBackend 15 3).1.toOption.map
        fun l => l.map SearchItem.rank) =
      some [1, 2, 3, 4, 5, 6, 7, 8, 9, 10] ∧
    (cse_search_paged middleEmptyBackend 15 3).2 =
      [(1, 10), (11, 10), (21, 10), (31, 5), (41, 5), (51, 5), (61, 5),
        (71, 5), (81, 5), (91, 5)] :=
  ⟨by decide, by decide⟩

/-- C4: requesting fifteen results from a backend with ten items on the
page at `start = 1` and five on the page at `start = 11` returns exactly
fifteen ranked results with ranks 1..15, from exactly two backend calls
(`(1, 10)` then `(11, 5)`), with no third call. -/
theorem paged_two_pages_fifteen_results :
    ((cse_search_paged twoPageBackend 15 3).1.toOption.map
        fun l => l.map SearchItem.rank) =
      some [1, 2, 3, 4, 5, 6, 7, 8, 9, 10, 11, 12, 13, 14, 15] ∧
    (cse_search_paged twoPageBackend 15 3).2 = [(1, 10), (11, 5)] :=
  ⟨by decide, by decide⟩

/-- The retry loop only ever appends to the call trace. -/
theorem attemptLoop_calls (backend : Nat → Nat → CseResponse)
    (retries start num : Nat) :
    ∀ (left attempt : Nat) (calls : List (Nat × Nat)), ∃ extra,
      (attemptLoop backend retries start num attempt left calls).2 =
        calls ++ extra := by
  intro left
  induction left with
  | zero => exact fun attempt calls => ⟨[], by simp [attemptLoop]⟩
  | succ left ih =>
    intro attempt calls
    simp only [attemptLoop]
    cases hb : backend start num with
    | http status errMsg items =>
      dsimp only
      by_cases hs : status ≠ 200
      · rw [if_pos hs]
        by_cases hr : (should_retry (some status) (httpErrStr status errMsg) &&
            decide (attempt < retries)) = true
        · rw [if_pos hr]
          obtain ⟨e, he⟩ := ih (attempt + 1) (calls ++ [(start, num)])
          exact ⟨[(start, num)] ++ e, by rw [he, List.append_assoc]⟩
        · rw [if_neg hr]
          exact ⟨[(start, num)], rfl⟩
      · rw [if_neg hs]
        exact ⟨[(start, num)], rfl⟩
    | netFail msg =>
      dsimp only
      by_cases hr : retries ≤ attempt
      · rw [if_pos hr]
        exact ⟨[(start, num)], rfl⟩
      · rw [if_neg hr]
        obtain ⟨e, he⟩ := ih (attempt + 1) (calls ++ [(start, num)])
        exact ⟨[(start, num)] ++ e, by rw [he, List.append_assoc]⟩

/-- A run of the retry loop that actually iterates puts `(start, num)` next
in the call trace. -/
theorem attemptLoop_first_call (backend : Nat → Nat → CseResponse)
    (retries start num attempt left : Nat) (calls : List (Nat × Nat)) :
    ∃ extra,
      (attemptLoop backend retries start num attempt (left + 1) calls).2 =
        calls ++ (start, num) :: extra := by
  simp only [attemptLoop]
  cases hb : backend start num with
  | http status errMsg items =>
    dsimp only
    by_cases hs : status ≠ 200
    · rw [if_pos hs]
      by_cases hr : (should_retry (some status) (httpErrStr status errMsg) &&
          decide (attempt < retries)) = true
      · rw [if_pos hr]
        obtain ⟨e, he⟩ := attemptLoop_calls backend retries start num left
          (attempt + 1) (calls ++ [(start, num)])
        exact ⟨e, by rw [he, List.append_assoc]; rfl⟩
      · rw [if_neg hr]
        exact ⟨[], rfl⟩
    · rw [if_neg hs]
      exact ⟨[], rfl⟩
  | netFail msg =>
    dsimp only
    by_cases hr : retries ≤ attempt
    · rw [if_pos hr]
      exact ⟨[], rfl⟩
    · rw [if_neg hr]
      obtain ⟨e, he⟩ := attemptLoop_calls backend retries start num left
        (attempt + 1) (calls ++ [(start, num)])
      exact ⟨e, by rw [he, List.append_assoc]; rfl⟩

/-- The paging loop only ever appends to the call trace. -/
theorem pagedGo_calls (backend : Nat → Nat → CseResponse) (retries total : Nat) :
    ∀ (fuel : Nat) (results : List SearchItem) (start rank : Nat)
      (calls : List (Nat × Nat)), ∃ extra,
      (pagedGo backend retries total fuel results start rank calls).2 =
        calls ++ extra := by
  intro fuel
  induction fuel with
  | zero => exact fun results start rank calls => ⟨[], by simp [pagedGo]⟩
  | succ fuel ih =>
    intro results start rank calls
    simp only [pagedGo]
    by_cases hlt : results.length < total
    · rw [if_pos hlt]
      obtain ⟨e1, he1⟩ := attemptLoop_calls backend retries start
        (min 10 (total - results.length)) retries 1 calls
      rcases hal : attemptLoop backend retries start
          (min 10 (total - results.length)) 1 retries calls with ⟨res, calls2⟩
      rw [hal] at he1
      have hc2 : calls2 = calls ++ e1 := he1
      cases res with
      | error e => exact ⟨e1, hc2⟩
      | ok raw =>
        dsimp only
        by_cases h1 : total ≤ (results ++ rankItems rank raw).length
        · rw [if_pos h1]
          exact ⟨e1, hc2⟩
        · rw [if_neg h1]
          by_cases h2 : 91 < start + 10
          · rw [if_pos h2]
            exact ⟨e1, hc2⟩
          · rw [if_neg h2]
            obtain ⟨e2, he2⟩ := ih (results ++ rankItems rank raw) (start + 10)
              (rank + raw.length) calls2
            refine ⟨e1 ++ e2, ?_⟩
            rw [he2, hc2, List.append_assoc]
    · rw [if_neg hlt]
      exact ⟨[], by simp⟩

/-- A paging iteration with positive fuel, positive retry budget and an
unmet target records `(start, min 10 (total - len))` as its next call. -/
theorem pagedGo_first_call (backend : Nat → Nat → CseResponse)
    (retries total fuel : Nat) (results : List SearchItem)
    (start rank : Nat) (calls : List (Nat × Nat))
    (hlt : results.length < total) (hr : 1 ≤ retries) :
    ∃ extra,
      (pagedGo backend retries total (fuel + 1) results start rank calls).2 =
        calls ++ (start, min 10 (total - results.length)) :: extra := by
  obtain ⟨left, rfl⟩ : ∃ left, retries = left + 1 := ⟨retries - 1, by omega⟩
  simp only [pagedGo]
  rw [if_pos hlt]
  obtain ⟨e1, he1⟩ := attemptLoop_first_call backend (left + 1) start
    (min 10 (total - results.length)) 1 left calls
  rcases hal : attemptLoop backend (left + 1) start
      (min 10 (total - results.length)) 1 (left + 1) calls with ⟨res, calls2⟩
  rw [hal] at he1
  have hc2 : calls2 = calls ++ (start, min 10 (total - results.length)) :: e1 := he1
  cases res with
  | error e => exact ⟨e1, hc2⟩
  | ok raw =>
    dsimp only
    by_cases h1 : total ≤ (results ++ rankItems rank raw).length
    · rw [if_pos h1]
      exact ⟨e1, hc2⟩
    · rw [if_neg h1]
      by_cases h2 : 91 < start + 10
      · rw [if_pos h2]
        exact ⟨e1, hc2⟩
      · rw [if_neg h2]
        obtain ⟨e2, he2⟩ := pagedGo_calls backend (left + 1) total fuel
          (results ++ rankItems rank raw) (start + 10) (rank + raw.length) calls2
        rcases hpg : pagedGo backend (left + 1) total fuel
            (results ++ rankItems rank raw) (start + 10) (rank + raw.length)
            calls2 with ⟨res2, calls3⟩
        rw [hpg] at he2
        have hc3 : calls3 = calls2 ++ e2 := he2
        cases res2 with
        | error e =>
          exact ⟨e1 ++ e2, by simp [hc3, hc2]⟩
        | ok out =>
          exact ⟨e1 ++ e2, by simp [hc3, hc2]⟩

/-- C9: for every `total_results ≤ 0` the effective target is
`max(1, total_results) = 1`: the executor still issues a first backend call,
at `start = 1` with page size `num = min(10, 1) = 1`, rather than returning
empty or failing on account of the requested count (stated for any backend
and any positive retry budget). -/
theorem paged_nonpositive_total (t : Int) (backend : Nat → Nat → CseResponse)
    (retries : Nat) (ht : t ≤ 0) (hr : 1 ≤ retries) :
    (cse_search_paged backend t retries).2.head? = some (1, 1) := by
  have htot : (max 1 t).toNat = 1 := by
    rw [max_eq_left (ht.trans (by norm_num))]
    rfl
  have h10 : pagedGo backend retries 1 10 [] 1 1 [] =
      pagedGo backend retries 1 (9 + 1) [] 1 1 [] := rfl
  obtain ⟨extra, hex⟩ :=
    pagedGo_first_call backend retries 1 9 [] 1 1 [] (by decide) hr
  have hmin : min 10 (1 - ([] : List SearchItem).length) = 1 := by decide
  rw [hmin] at hex
  simp only [cse_search_paged, htot, h10]
  rcases hpg : pagedGo backend retries 1 (9 + 1) [] 1 1 [] with ⟨res, calls⟩
  rw [hpg] at hex
  have hcalls : calls = [] ++ (1, 1) :: extra := hex
  rw [List.nil_append] at hcalls
  cases res with
  | error e => simp [hcalls]
  | ok out => simp [hcalls]

/-- Witness for C9 at `total_results = -5`, `retries = 3`. -/
theorem paged_nonpositive_total_witness :
    (cse_search_paged emptyBackend (-5) 3).2.head? = some (1, 1) :=
  paged_nonpositive_total (-5) emptyBackend 3 (by decide) (by decide)

/-- The ranks attached by `rankItems` are consecutive from `rank0`. -/
theorem rankItems_map_rank (raw : List RawItem) :
    ∀ rank0, (rankItems rank0 raw).map SearchItem.rank =
      List.range' rank0 raw.length := by
  induction raw with
  | nil => intro rank0; simp [rankItems]
  | cons it rest ih =>
    intro rank0
    simp [rankItems, List.range'_succ, ih]

/-- As many ranked records as raw items. -/
theorem rankItems_length (raw : List RawItem) (rank0 : Nat) :
    (rankItems rank0 raw).length = raw.length := by
  have h := congrArg List.length (rankItems_map_rank raw rank0)
  simpa using h

/-- Rank invariant of the paging loop: starting from an accumulator whose
ranks are exactly `1..len` with the rank counter at `len + 1` — as in the
initial state `[]`, `rank = 1` — every successful run returns a list whose
ranks are exactly `1..length`, across however many pages were fetched. -/
theorem pagedGo_ok_ranks (backend : Nat → Nat → CseResponse)
    (retries total : Nat) :
    ∀ (fuel : Nat) (results : List SearchItem) (start rank : Nat)
      (calls calls2 : List (Nat × Nat)) (out : List SearchItem),
      rank = results.length + 1 →
      results.map SearchItem.rank = List.range' 1 results.length →
      pagedGo backend retries total fuel results start rank calls =
        (.ok out, calls2) →
      out.map SearchItem.rank = List.range' 1 out.length := by
  intro fuel
  induction fuel with
  | zero =>
    intro results start rank calls calls2 out hrank hmap hpg
    simp only [pagedGo, Prod.mk.injEq, Except.ok.injEq] at hpg
    rw [← hpg.1]
    exact hmap
  | succ fuel ih =>
    intro results start rank calls calls2 out hrank hmap hpg
    simp only [pagedGo] at hpg
    by_cases hlt : results.length < total
    · rw [if_pos hlt] at hpg
      rcases hal : attemptLoop backend retries start
          (min 10 (total - results.length)) 1 retries calls with ⟨res, callsA⟩
      rw [hal] at hpg
      cases res with
      | error e => simp at hpg
      | ok raw =>
        dsimp only at hpg
        have hlen : (results ++ rankItems rank raw).length =
            results.length + raw.length := by
          simp [rankItems_length]
        have hmap2 : (results ++ rankItems rank raw).map SearchItem.rank =
            List.range' 1 ((results ++ rankItems rank raw).length) := by
          rw [hlen, List.map_append, hmap, rankItems_map_rank raw rank, hrank]
          have h := List.range'_append 1 results.length raw.length 1
          simpa [Nat.add_comm, Nat.one_mul] using h
        by_cases h1 : total ≤ (results ++ rankItems rank raw).length
        · rw [if_pos h1] at hpg
          simp only [Prod.mk.injEq, Except.ok.injEq] at hpg
          rw [← hpg.1]
          exact hmap2
        · rw [if_neg h1] at hpg
          by_cases h2 : 91 < start + 10
          · rw [if_pos h2] at hpg
            simp only [Prod.mk.injEq, Except.ok.injEq] at hpg
            rw [← hpg.1]
            exact hmap2
          · rw [if_neg h2] at hpg
            exact ih (results ++ rankItems rank raw) (start + 10)
              (rank + raw.length) callsA calls2 out (by rw [hlen]; omega)
              hmap2 hpg
    · rw [if_neg hlt] at hpg
      simp only [Prod.mk.injEq, Except.ok.injEq] at hpg
      rw [← hpg.1]
      exact hmap

/-- Deduplication keeps the rank sequence a subsequence of the input's. -/
theorem dedupGo_rank_sublist (items : List SearchItem) :
    ∀ seen, ((dedupGo seen items).map SearchItem.rank).Sublist
      (items.map SearchItem.rank) := by
  induction items with
  | nil => intro seen; simp [dedupGo]
  | cons it rest ih =>
    intro seen
    simp only [dedupGo, List.map_cons]
    by_cases h : normalize_url it.url = [] ∨ normalize_url it.url ∈ seen
    · rw [if_pos h]
      exact (ih seen).trans (List.sublist_cons_self _ _)
    · rw [if_neg h]
      simp only [List.map_cons]
      exact List.Sublist.cons₂ _ (ih _)

/-- Specialisation to `dedup_results`. -/
theorem dedup_results_rank_sublist (items : List SearchItem) :
    ((dedup_results items).map SearchItem.rank).Sublist
      (items.map SearchItem.rank) :=
  dedupGo_rank_sublist items []

/-- C7: whenever a run of `cse_search_paged` succeeds with result list `L`,
the pre-dedup accumulated list `pre` carries ranks exactly `1..len` — the
counter continues across pages, never resetting — and the final returned
list (after the deduplication pass) still has strictly increasing, hence
unique, rank values in emission order. -/
theorem paged_ranks_strictly_increasing (backend : Nat → Nat → CseResponse)
    (t : Int) (retries : Nat) (L : List SearchItem) (calls : List (Nat × Nat))
    (h : cse_search_paged backend t retries = (.ok L, calls)) :
    ∃ pre : List SearchItem,
      pagedGo backend retries ((max 1 t).toNat) 10 [] 1 1 [] =
        (.ok pre, calls) ∧
      L = dedup_results pre ∧
      pre.map SearchItem.rank = List.range' 1 pre.length ∧
      List.Pairwise (· < ·) (L.map SearchItem.rank) ∧
      (L.map SearchItem.rank).Nodup := by
  revert h
  simp only [cse_search_paged]
  rcases hpg : pagedGo backend retries ((max 1 t).toNat) 10 [] 1 1 []
    with ⟨res, callsP⟩
  cases res with
  | error e =>
    intro h
    simp at h
  | ok pre =>
    intro h
    simp only [Prod.mk.injEq, Except.ok.injEq] at h
    obtain ⟨hL, hcalls⟩ := h
    subst hcalls
    have hranks : pre.map SearchItem.rank = List.range' 1 pre.length :=
      pagedGo_ok_ranks backend retries _ 10 [] 1 1 [] callsP pre rfl rfl hpg
    have hsub : (L.map SearchItem.rank).Sublist (pre.map SearchItem.rank) :=
      hL ▸ dedup_results_rank_sublist pre
    have hpair : List.Pairwise (· < ·) (L.map SearchItem.rank) := by
      rw [hranks] at hsub
      exact List.Pairwise.sublist hsub (List.pairwise_lt_range' 1 pre.length)
    exact ⟨pre, rfl, hL.symm, hranks, hpair,
      hpair.imp fun hab => Nat.ne_of_lt hab⟩

/-! ### ASCII case folding, character for character -/

theorem char_le_iff (a b : Char) : a ≤ b ↔ a.toNat ≤ b.toNat := by
  rw [Char.le_def, UInt32.le_def]
  simp [Char.toNat, UInt32.toNat, BitVec.le_def]

theorem char_eq_of_toNat {a b : Char} (h : a.toNat = b.toNat) : a = b := by
  apply Char.ext
  apply UInt32.eq_of_toBitVec_eq
  apply BitVec.eq_of_toNat_eq
  exact h

theorem char_eq_iff_toNat (a b : Char) : a = b ↔ a.toNat = b.toNat :=
  ⟨fun h => h ▸ rfl, char_eq_of_toNat⟩

theorem char_toNat_ofNat (n : Nat) (h : Nat.isValidChar n) :
    (Char.ofNat n).toNat = n := by
  simp [Char.ofNat, h, Char.ofNatAux, Char.toNat, UInt32.toNat, BitVec.toNat_ofNatLt]

theorem toLower_unfold (c : Char) :
    c.toLower =
      if 65 ≤ c.toNat ∧ c.toNat ≤ 90 then Char.ofNat (c.toNat + 32) else c := rfl

theorem toLower_spec (c : Char) :
    (¬(65 ≤ c.toNat ∧ c.toNat ≤ 90) ∧ c.toLower = c) ∨
    ((65 ≤ c.toNat ∧ c.toNat ≤ 90) ∧ c.toLower.toNat = c.toNat + 32) := by
  by_cases h : 65 ≤ c.toNat ∧ c.toNat ≤ 90
  · right
    refine ⟨h, ?_⟩
    rw [toLower_unfold, if_pos h]
    exact char_toNat_ofNat _ (Or.inl (by omega))
  · left
    refine ⟨h, ?_⟩
    rw [toLower_unfold, if_neg h]

theorem toLower_toLower (c : Char) : c.toLower.toLower = c.toLower := by
  rcases toLower_spec c with ⟨h, he⟩ | ⟨h, he⟩
  · rw [he, he]
  · rcases toLower_spec c.toLower with ⟨h2, he2⟩ | ⟨h2, he2⟩
    · exact he2
    · omega

theorem lowerStr_idem (s : Str) : lowerStr (lowerStr s) = lowerStr s := by
  simp only [lowerStr, List.map_map]
  exact List.map_congr_left fun a _ => toLower_toLower a

/-- Case folding is the identity exactly away from the uppercase letters;
on any character whose code is outside the lowercase range it can only be
the identity. -/
theorem toLower_eq_symbol {c d : Char}
    (hd : d.toNat < 97 ∨ 122 < d.toNat) (hd2 : ¬(65 ≤ d.toNat ∧ d.toNat ≤ 90)) :
    c.toLower = d ↔ c = d := by
  constructor
  · intro he
    rcases toLower_spec c with ⟨h, h2⟩ | ⟨h, h2⟩
    · rw [← h2]
      exact he
    · exfalso
      have hn : c.toLower.toNat = d.toNat := by rw [he]
      omega
  · intro he
    subst he
    rcases toLower_spec c with ⟨h, h2⟩ | ⟨h, h2⟩
    · exact h2
    · exact absurd ⟨h.1, h.2⟩ hd2

theorem mem_lowerStr_symbol {d : Char} (s : Str)
    (hd : d.toNat < 97 ∨ 122 < d.toNat) (hd2 : ¬(65 ≤ d.toNat ∧ d.toNat ≤ 90)) :
    d ∈ lowerStr s ↔ d ∈ s := by
  simp only [lowerStr, List.mem_map]
  constructor
  · rintro ⟨ch, hm, he⟩
    rwa [(toLower_eq_symbol hd hd2).mp he] at hm
  · intro hm
    exact ⟨d, hm, (toLower_eq_symbol hd hd2).mpr rfl⟩

theorem netlocEnd_iff (c : Char) :
    netlocEnd c = true ↔ c.toNat = 47 ∨ c.toNat = 63 ∨ c.toNat = 35 := by
  have k1 : ('/' : Char).toNat = 47 := by decide
  have k2 : ('?' : Char).toNat = 63 := by decide
  have k3 : ('#' : Char).toNat = 35 := by decide
  simp only [netlocEnd, Bool.or_eq_true, decide_eq_true_eq, char_eq_iff_toNat,
    k1, k2, k3]
  omega

theorem isAsciiAlpha_iff (c : Char) :
    isAsciiAlpha c = true ↔
      (97 ≤ c.toNat ∧ c.toNat ≤ 122) ∨ (65 ≤ c.toNat ∧ c.toNat ≤ 90) := by
  have k1 : ('a' : Char).toNat = 97 := by decide
  have k2 : ('z' : Char).toNat = 122 := by decide
  have k3 : ('A' : Char).toNat = 65 := by decide
  have k4 : ('Z' : Char).toNat = 90 := by decide
  simp only [isAsciiAlpha, Bool.or_eq_true, Bool.and_eq_true, decide_eq_true_eq,
    char_le_iff, k1, k2, k3, k4]

theorem schemeChar_iff (c : Char) :
    schemeChar c = true ↔
      (97 ≤ c.toNat ∧ c.toNat ≤ 122) ∨ (65 ≤ c.toNat ∧ c.toNat ≤ 90) ∨
      (48 ≤ c.toNat ∧ c.toNat ≤ 57) ∨ c.toNat = 43 ∨ c.toNat = 45 ∨
      c.toNat = 46 := by
  have k1 : ('a' : Char).toNat = 97 := by decide
  have k2 : ('z' : Char).toNat = 122 := by decide
  have k3 : ('A' : Char).toNat = 65 := by decide
  have k4 : ('Z' : Char).toNat = 90 := by decide
  have k5 : ('0' : Char).toNat = 48 := by decide
  have k6 : ('9' : Char).toNat = 57 := by decide
  have k7 : ('+' : Char).toNat = 43 := by decide
  have k8 : ('-' : Char).toNat = 45 := by decide
  have k9 : ('.' : Char).toNat = 46 := by decide
  simp only [schemeChar, Bool.or_eq_true, Bool.and_eq_true, decide_eq_true_eq,
    char_le_iff, char_eq_iff_toNat, k1, k2, k3, k4, k5, k6, k7, k8, k9]
  omega

theorem isUnsafeUrlChar_iff (c : Char) :
    isUnsafeUrlChar c = true ↔ c.toNat = 9 ∨ c.toNat = 13 ∨ c.toNat = 10 := by
  have k1 : ('\t' : Char).toNat = 9 := by decide
  have k2 : ('\r' : Char).toNat = 13 := by decide
  have k3 : ('\n' : Char).toNat = 10 := by decide
  simp only [isUnsafeUrlChar, Bool.or_eq_true, decide_eq_true_eq,
    char_eq_iff_toNat, k1, k2, k3]
  omega

theorem netlocEnd_toLower (c : Char) : netlocEnd c.toLower = netlocEnd c := by
  rcases toLower_spec c with ⟨h, he⟩ | ⟨h, he⟩
  · rw [he]
  · have h1 : netlocEnd c = false := by
      rw [← Bool.not_eq_true, netlocEnd_iff]
      omega
    have h2 : netlocEnd c.toLower = false := by
      rw [← Bool.not_eq_true, netlocEnd_iff]
      omega
    rw [h1, h2]

theorem isUnsafeUrlChar_toLower (c : Char) :
    isUnsafeUrlChar c.toLower = isUnsafeUrlChar c := by
  rcases toLower_spec c with ⟨h, he⟩ | ⟨h, he⟩
  · rw [he]
  · have h1 : isUnsafeUrlChar c = false := by
      rw [← Bool.not_eq_true, isUnsafeUrlChar_iff]
      omega
    have h2 : isUnsafeUrlChar c.toLower = false := by
      rw [← Bool.not_eq_true, isUnsafeUrlChar_iff]
      omega
    rw [h1, h2]

theorem schemeChar_toLower {c : Char} (h : schemeChar c = true) :
    schemeChar c.toLower = true := by
  rcases toLower_spec c with ⟨h1, he⟩ | ⟨h1, he⟩
  · rw [he]
    exact h
  · rw [schemeChar_iff]
    omega

theorem isAsciiAlpha_toLower {c : Char} (h : isAsciiAlpha c = true) :
    isAsciiAlpha c.toLower = true := by
  rcases toLower_spec c with ⟨h1, he⟩ | ⟨h1, he⟩
  · rw [he]
    exact h
  · rw [isAsciiAlpha_iff]
    omega

theorem toLower_ne_colon (c : Char) (h : c ≠ ':') : c.toLower ≠ ':' := by
  have k : (':' : Char).toNat = 58 := by decide
  rcases toLower_spec c with ⟨h1, he⟩ | ⟨h1, he⟩
  · rw [he]
    exact h
  · intro hc
    rw [char_eq_iff_toNat, k] at hc
    omega

/-! ### Small list facts for the parser proofs -/

theorem takeWhile_append_all {p : Char → Bool} {l₁ l₂ : Str}
    (h : ∀ a ∈ l₁, p a = true) :
    (l₁ ++ l₂).takeWhile p = l₁ ++ l₂.takeWhile p := by
  have hs : l₁.takeWhile p = l₁ := List.takeWhile_eq_self_iff.mpr h
  rw [List.takeWhile_append, hs, if_pos rfl]

theorem dropWhile_append_all {p : Char → Bool} {l₁ l₂ : Str}
    (h : ∀ a ∈ l₁, p a = true) :
    (l₁ ++ l₂).dropWhile p = l₂.dropWhile p := by
  have hs : l₁.dropWhile p = [] := List.dropWhile_eq_nil_iff.mpr h
  rw [List.dropWhile_append, hs]
  rfl

theorem takeWhile_all {p : Char → Bool} {l : Str} (h : ∀ a ∈ l, p a = true) :
    l.takeWhile p = l := List.takeWhile_eq_self_iff.mpr h

theorem dropWhile_all {p : Char → Bool} {l : Str} (h : ∀ a ∈ l, p a = true) :
    l.dropWhile p = [] := List.dropWhile_eq_nil_iff.mpr h

theorem dropWhile_dropWhile (p : Char → Bool) (l : Str) :
    (l.dropWhile p).dropWhile p = l.dropWhile p := by
  induction l with
  | nil => rfl
  | cons a t ih =>
    rw [List.dropWhile_cons]
    by_cases h : p a = true
    · rw [if_pos h]
      exact ih
    · rw [if_neg h, List.dropWhile_cons, if_neg h]

theorem dropWhile_head_false {p : Char → Bool} {l : Str} {a : Char} {t : Str}
    (h : l.dropWhile p = a :: t) : p a = false := by
  induction l with
  | nil => simp at h
  | cons b u ih =>
    rw [List.dropWhile_cons] at h
    by_cases hb : p b = true
    · rw [if_pos hb] at h
      exact ih h
    · rw [if_neg hb] at h
      cases h
      exact Bool.eq_false_iff.mpr hb

theorem dropWhile_eq_self_of_head {p : Char → Bool} {a : Char} {t : Str}
    (h : p a = false) : (a :: t).dropWhile p = a :: t := by
  rw [List.dropWhile_cons, if_neg (by simp [h])]

/-- `pyStrip` is idempotent. -/
theorem pyStrip_idem (s : Str) : pyStrip (pyStrip s) = pyStrip s := by
  unfold pyStrip
  rcases hB : ((s.dropWhile isPyWs).reverse.dropWhile isPyWs) with _ | ⟨b, B⟩
  · simp
  · have hbw : isPyWs b = false := dropWhile_head_false hB
    have hpre : (b :: B).reverse <+: s.dropWhile isPyWs := by
      have hsuf : (b :: B) <:+ (s.dropWhile isPyWs).reverse := by
        rw [← hB]
        exact List.dropWhile_suffix isPyWs
      have h2 := List.reverse_prefix.mpr hsuf
      rwa [List.reverse_reverse] at h2
    have hfront : (b :: B).reverse.dropWhile isPyWs = (b :: B).reverse := by
      obtain ⟨t, ht⟩ := hpre
      rcases hR : (b :: B).reverse with _ | ⟨r0, R⟩
      · simp at hR
      · have hr0 : isPyWs r0 = false := by
          have : s.dropWhile isPyWs = r0 :: (R ++ t) := by
            rw [← ht, hR]
            simp
          exact dropWhile_head_false this
        exact dropWhile_eq_self_of_head hr0
    rw [hfront, List.reverse_reverse, ← hB, dropWhile_dropWhile, hB]

/-! ### Percent-coding roundtrip -/

theorem uqDecode_byte_ascii {b : Nat} (h : b < 128) (toks : List UQTok) :
    uqDecode none (.byte b :: toks) = Char.ofNat b :: uqDecode none toks := by
  simp only [uqDecode]
  rw [if_pos h]

theorem uqDecode_byte_lead {b : Nat} {s : Utf8State} (h128 : ¬b < 128)
    (hl : leadState b = some s) (toks : List UQTok) :
    uqDecode none (.byte b :: toks) = uqDecode (some s) toks := by
  simp only [uqDecode]
  rw [if_neg h128, hl]

theorem uqDecode_cont_more {s : Utf8State} {b : Nat}
    (hr : s.lo ≤ b ∧ b ≤ s.hi) (hn : ¬s.need = 1) (toks : List UQTok) :
    uqDecode (some s) (.byte b :: toks) =
      uqDecode (some ⟨s.need - 1, s.acc * 64 + (b - 128), 128, 191⟩) toks := by
  simp only [uqDecode]
  rw [if_pos (by simp only [Bool.and_eq_true, decide_eq_true_eq]; exact hr),
    if_neg hn]

theorem uqDecode_cont_last {s : Utf8State} {b : Nat}
    (hr : s.lo ≤ b ∧ b ≤ s.hi) (hn : s.need = 1) (toks : List UQTok) :
    uqDecode (some s) (.byte b :: toks) =
      Char.ofNat (s.acc * 64 + (b - 128)) :: uqDecode none toks := by
  simp only [uqDecode]
  rw [if_pos (by simp only [Bool.and_eq_true, decide_eq_true_eq]; exact hr),
    if_pos hn]

theorem leadState_two {b : Nat} (h : 194 ≤ b ∧ b ≤ 223) :
    leadState b = some ⟨1, b - 192, 128, 191⟩ := by
  unfold leadState
  rw [if_pos (by simp only [Bool.and_eq_true, decide_eq_true_eq]; exact h)]

theorem leadState_E0 : leadState 224 = some ⟨2, 0, 160, 191⟩ := by decide

theorem leadState_ED : leadState 237 = some ⟨2, 13, 128, 159⟩ := by decide

theorem leadState_three {b : Nat} (h : 225 ≤ b ∧ b ≤ 239) (hn : b ≠ 237) :
    leadState b = some ⟨2, b - 224, 128, 191⟩ := by
  unfold leadState
  rw [if_neg (by simp only [Bool.and_eq_true, decide_eq_true_eq, not_and]; omega),
    if_neg (by omega), if_neg hn,
    if_pos (by simp only [Bool.and_eq_true, decide_eq_true_eq]; exact h)]

theorem leadState_F0 : leadState 240 = some ⟨3, 0, 144, 191⟩ := by decide

theorem leadState_F4 : leadState 244 = some ⟨3, 4, 128, 143⟩ := by decide

theorem leadState_four {b : Nat} (h : 241 ≤ b ∧ b ≤ 243) :
    leadState b = some ⟨3, b - 240, 128, 191⟩ := by
  unfold leadState
  rw [if_neg (by simp only [Bool.and_eq_true, decide_eq_true_eq, not_and]; omega),
    if_neg (by omega), if_neg (by omega),
    if_neg (by simp only [Bool.and_eq_true, decide_eq_true_eq, not_and]; omega),
    if_neg (by omega), if_neg (by omega),
    if_pos (by simp only [Bool.and_eq_true, decide_eq_true_eq]; exact h)]

/-- Decoding the UTF-8 encoding of any valid scalar value in front of a
token stream yields that character and continues with the stream. -/
theorem uqDecode_utf8 (c : Char) (toks : List UQTok) :
    uqDecode none ((utf8EncodeChar c.toNat).map UQTok.byte ++ toks) =
      c :: uqDecode none toks := by
  have hv : c.toNat < 55296 ∨ (57344 ≤ c.toNat ∧ c.toNat < 1114112) := by
    rcases c.valid with h | ⟨h1, h2⟩
    · left
      simpa [Char.toNat] using h
    · right
      constructor
      · simpa [Char.toNat] using h1
      · simpa [Char.toNat] using h2
  set n := c.toNat with hn
  by_cases h1 : n < 128
  · rw [show utf8EncodeChar n = [n] from by unfold utf8EncodeChar; rw [if_pos h1]]
    simp only [List.map_cons, List.map_nil, List.cons_append, List.nil_append]
    rw [uqDecode_byte_ascii h1, hn, Char.ofNat_toNat]
  · by_cases h2 : n < 2048
    · rw [show utf8EncodeChar n = [192 + n / 64, 128 + n % 64] from by
        unfold utf8EncodeChar; rw [if_neg h1, if_pos h2]]
      simp only [List.map_cons, List.map_nil, List.cons_append, List.nil_append]
      rw [uqDecode_byte_lead (by omega) (leadState_two (by omega)),
        uqDecode_cont_last (by constructor <;> (simp only []; omega)) rfl]
      have : (192 + n / 64 - 192) * 64 + (128 + n % 64 - 128) = n := by omega
      rw [show (⟨1, 192 + n / 64 - 192, 128, 191⟩ : Utf8State).acc * 64 +
          (128 + n % 64 - 128) = n from by simp only []; omega]
      rw [hn, Char.ofNat_toNat]
    · by_cases h3 : n < 65536
      · rw [show utf8EncodeChar n =
            [224 + n / 4096, 128 + n / 64 % 64, 128 + n % 64] from by
          unfold utf8EncodeChar; rw [if_neg h1, if_neg h2, if_pos h3]]
        simp only [List.map_cons, List.map_nil, List.cons_append, List.nil_append]
        have hda : n / 4096 ≤ 15 := by omega
        have hsur : ¬(55296 ≤ n ∧ n ≤ 57343) := by omega
        by_cases hE0 : n / 4096 = 0
        · rw [show 224 + n / 4096 = 224 from by omega,
            uqDecode_byte_lead (by omega) leadState_E0,
            uqDecode_cont_more (by constructor <;> (simp only []; omega))
              (by simp only []; omega),
            uqDecode_cont_last (by constructor <;> (simp only []; omega)) rfl]
          rw [show ((⟨2 - 1, (0 : Nat) * 64 + (128 + n / 64 % 64 - 128), 128,
              191⟩ : Utf8State)).acc * 64 + (128 + n % 64 - 128) = n from by
            simp only []; omega]
          rw [hn, Char.ofNat_toNat]
        · by_cases hED : n / 4096 = 13
          · rw [show 224 + n / 4096 = 237 from by omega,
              uqDecode_byte_lead (by omega) leadState_ED,
              uqDecode_cont_more (by constructor <;> (simp only []; omega))
                (by simp only []; omega),
              uqDecode_cont_last (by constructor <;> (simp only []; omega)) rfl]
            rw [show ((⟨2 - 1, (13 : Nat) * 64 + (128 + n / 64 % 64 - 128), 128,
                191⟩ : Utf8State)).acc * 64 + (128 + n % 64 - 128) = n from by
              simp only []; omega]
            rw [hn, Char.ofNat_toNat]
          · rw [uqDecode_byte_lead (by omega)
                (leadState_three (by omega) (by omega)),
              uqDecode_cont_more (by constructor <;> (simp only []; omega))
                (by simp only []; omega),
              uqDecode_cont_last (by constructor <;> (simp only []; omega)) rfl]
            rw [show ((⟨2 - 1, (224 + n / 4096 - 224) * 64 +
                (128 + n / 64 % 64 - 128), 128, 191⟩ : Utf8State)).acc * 64 +
                (128 + n % 64 - 128) = n from by simp only []; omega]
            rw [hn, Char.ofNat_toNat]
      · have h4 : n < 1114112 := by omega
        rw [show utf8EncodeChar n = [240 + n / 262144, 128 + n / 4096 % 64,
            128 + n / 64 % 64, 128 + n % 64] from by
          unfold utf8EncodeChar; rw [if_neg h1, if_neg h2, if_neg h3]]
        simp only [List.map_cons, List.map_nil, List.cons_append, List.nil_append]
        have hda : n / 262144 ≤ 4 := by omega
        by_cases hF0 : n / 262144 = 0
        · rw [show 240 + n / 262144 = 240 from by omega,
            uqDecode_byte_lead (by omega) leadState_F0,
            uqDecode_cont_more (by constructor <;> (simp only []; omega))
              (by simp only []; omega),
            uqDecode_cont_more (by constructor <;> (simp only []; omega))
              (by simp only []; omega),
            uqDecode_cont_last (by constructor <;> (simp only []; omega)) rfl]
          rw [show ((⟨3 - 1 - 1, ((0 : Nat) * 64 + (128 + n / 4096 % 64 - 128)) *
              64 + (128 + n / 64 % 64 - 128), 128, 191⟩ : Utf8State)).acc * 64 +
              (128 + n % 64 - 128) = n from by simp only []; omega]
          rw [hn, Char.ofNat_toNat]
        · by_cases hF4 : n / 262144 = 4
          · rw [show 240 + n / 262144 = 244 from by omega,
              uqDecode_byte_lead (by omega) leadState_F4,
              uqDecode_cont_more (by constructor <;> (simp only []; omega))
                (by simp only []; omega),
              uqDecode_cont_more (by constructor <;> (simp only []; omega))
                (by simp only []; omega),
              uqDecode_cont_last (by constructor <;> (simp only []; omega)) rfl]
            rw [show ((⟨3 - 1 - 1, ((4 : Nat) * 64 + (128 + n / 4096 % 64 - 128)) *
                64 + (128 + n / 64 % 64 - 128), 128, 191⟩ : Utf8State)).acc * 64 +
                (128 + n % 64 - 128) = n from by simp only []; omega]
            rw [hn, Char.ofNat_toNat]
          · rw [uqDecode_byte_lead (by omega) (leadState_four (by omega)),
              uqDecode_cont_more (by constructor <;> (simp only []; omega))
                (by simp only []; omega),
              uqDecode_cont_more (by constructor <;> (simp only []; omega))
                (by simp only []; omega),
              uqDecode_cont_last (by constructor <;> (simp only []; omega)) rfl]
            rw [show ((⟨3 - 1 - 1, ((240 + n / 262144 - 240) * 64 +
                (128 + n / 4096 % 64 - 128)) * 64 + (128 + n / 64 % 64 - 128),
                128, 191⟩ : Utf8State)).acc * 64 + (128 + n % 64 - 128) = n from
              by simp only []; omega]
            rw [hn, Char.ofNat_toNat]

theorem alwaysSafe_iff (c : Char) :
    alwaysSafe c = true ↔
      (97 ≤ c.toNat ∧ c.toNat ≤ 122) ∨ (65 ≤ c.toNat ∧ c.toNat ≤ 90) ∨
      (48 ≤ c.toNat ∧ c.toNat ≤ 57) ∨ c.toNat = 95 ∨ c.toNat = 46 ∨
      c.toNat = 45 ∨ c.toNat = 126 := by
  have k1 : ('a' : Char).toNat = 97 := by decide
  have k2 : ('z' : Char).toNat = 122 := by decide
  have k3 : ('A' : Char).toNat = 65 := by decide
  have k4 : ('Z' : Char).toNat = 90 := by decide
  have k5 : ('0' : Char).toNat = 48 := by decide
  have k6 : ('9' : Char).toNat = 57 := by decide
  have k7 : ('_' : Char).toNat = 95 := by decide
  have k8 : ('.' : Char).toNat = 46 := by decide
  have k9 : ('-' : Char).toNat = 45 := by decide
  have k10 : ('~' : Char).toNat = 126 := by decide
  simp only [alwaysSafe, Bool.or_eq_true, Bool.and_eq_true, decide_eq_true_eq,
    char_le_iff, char_eq_iff_toNat, k1, k2, k3, k4, k5, k6, k7, k8, k9, k10]
  omega

theorem hexDigitU_toNat {m : Nat} (h : m < 16) :
    (hexDigitU m).toNat = if m < 10 then 48 + m else 55 + m := by
  unfold hexDigitU
  have k5 : ('0' : Char).toNat = 48 := by decide
  have k6 : ('A' : Char).toNat = 65 := by decide
  by_cases hm : m < 10
  · rw [if_pos hm, if_pos hm, k5]
    exact char_toNat_ofNat _ (Or.inl (by omega))
  · rw [if_neg hm, if_neg hm, k6]
    rw [char_toNat_ofNat _ (Or.inl (by omega))]
    omega

theorem hexVal_hexDigitU {m : Nat} (h : m < 16) :
    hexVal (hexDigitU m) = some m := by
  have ht := hexDigitU_toNat h
  unfold hexVal
  by_cases hm : m < 10
  · rw [if_pos hm] at ht
    rw [if_pos (by simp only [Bool.and_eq_true, decide_eq_true_eq, ht]; omega)]
    rw [Option.some.injEq, ht]
    omega
  · rw [if_neg hm] at ht
    have c1 : ¬((decide (48 ≤ (hexDigitU m).toNat) &&
        decide ((hexDigitU m).toNat ≤ 57)) = true) := by
      simp only [Bool.and_eq_true, decide_eq_true_eq, ht, not_and]
      omega
    have c2 : ¬((decide (97 ≤ (hexDigitU m).toNat) &&
        decide ((hexDigitU m).toNat ≤ 102)) = true) := by
      simp only [Bool.and_eq_true, decide_eq_true_eq, ht, not_and]
      omega
    have c3 : (decide (65 ≤ (hexDigitU m).toNat) &&
        decide ((hexDigitU m).toNat ≤ 70)) = true := by
      simp only [Bool.and_eq_true, decide_eq_true_eq, ht]
      omega
    rw [if_neg c1, if_neg c2, if_pos c3, Option.some.injEq, ht]
    omega

theorem utf8EncodeChar_lt {n : Nat} (h : n < 1114112) :
    ∀ b ∈ utf8EncodeChar n, b < 256 := by
  unfold utf8EncodeChar
  by_cases h1 : n < 128
  · rw [if_pos h1]
    intro b hb
    simp only [List.mem_singleton] at hb
    omega
  · rw [if_neg h1]
    by_cases h2 : n < 2048
    · rw [if_pos h2]
      intro b hb
      simp only [List.mem_cons, List.not_mem_nil, or_false] at hb
      rcases hb with rfl | rfl <;> omega
    · rw [if_neg h2]
      by_cases h3 : n < 65536
      · rw [if_pos h3]
        intro b hb
        simp only [List.mem_cons, List.not_mem_nil, or_false] at hb
        rcases hb with rfl | rfl | rfl <;> omega
      · rw [if_neg h3]
        intro b hb
        simp only [List.mem_cons, List.not_mem_nil, or_false] at hb
        rcases hb with rfl | rfl | rfl | rfl <;> omega

theorem uqTokens_pct {b : Nat} (h : b < 256) (rest : Str) :
    uqTokens (pctEncodeByte b ++ rest) = .byte b :: uqTokens rest := by
  have e : pctEncodeByte b ++ rest =
      '%' :: hexDigitU (b / 16) :: hexDigitU (b % 16) :: rest := rfl
  rw [e]
  simp only [uqTokens, if_pos rfl, hexVal_hexDigitU (show b / 16 < 16 by omega),
    hexVal_hexDigitU (show b % 16 < 16 by omega)]
  rw [show 16 * (b / 16) + b % 16 = b from by omega, if_pos trivial]

theorem uqTokens_pct_flatten {bs : List Nat} (h : ∀ b ∈ bs, b < 256)
    (rest : Str) :
    uqTokens ((bs.map pctEncodeByte).flatten ++ rest) =
      bs.map UQTok.byte ++ uqTokens rest := by
  induction bs with
  | nil => simp
  | cons b t ih =>
    simp only [List.map_cons, List.flatten_cons, List.append_assoc,
      List.cons_append]
    rw [uqTokens_pct (h b (by simp)) _]
    rw [ih fun x hx => h x (by simp [hx])]

theorem uqTokens_cons_plain {c : Char} (hp : ¬c = '%') (rest : Str) :
    uqTokens (c :: rest) =
      (if c.toNat < 128 then UQTok.byte c.toNat else .raw c) :: uqTokens rest := by
  rw [uqTokens.eq_def]
  dsimp only
  rw [if_neg hp]

theorem char_toNat_lt (c : Char) : c.toNat < 1114112 := by
  rcases c.valid with h | ⟨h1, h2⟩
  · have : c.val.toNat < 55296 := h
    simp only [Char.toNat]
    omega
  · have : c.val.toNat < 1114112 := h2
    simp only [Char.toNat]
    omega

theorem map_self_of {f : Char → Char} {l : Str} (h : ∀ x ∈ l, f x = x) :
    l.map f = l := by
  induction l with
  | nil => rfl
  | cons a t ih =>
    simp only [List.map_cons, h a (by simp)]
    rw [ih fun x hx => h x (by simp [hx])]

theorem filterMap_some_of {α : Type} {g : α → Option α} {l : List α}
    (h : ∀ x ∈ l, g x = some x) : l.filterMap g = l := by
  induction l with
  | nil => rfl
  | cons a t ih =>
    rw [List.filterMap_cons, h a (by simp), ih fun x hx => h x (by simp [hx])]

theorem mem_pct_flatten {bs : List Nat} (hbs : ∀ b ∈ bs, b < 256) {ch : Char}
    (h : ch ∈ (bs.map pctEncodeByte).flatten) :
    ch.toNat = 37 ∨ (48 ≤ ch.toNat ∧ ch.toNat ≤ 57) ∨
      (65 ≤ ch.toNat ∧ ch.toNat ≤ 70) := by
  simp only [List.mem_flatten, List.mem_map] at h
  obtain ⟨l, ⟨b, hb, rfl⟩, hch⟩ := h
  have hblt : b < 256 := hbs b hb
  have e : pctEncodeByte b = ['%', hexDigitU (b / 16), hexDigitU (b % 16)] := rfl
  rw [e] at hch
  simp only [List.mem_cons, List.not_mem_nil, or_false] at hch
  have k37 : ('%' : Char).toNat = 37 := by decide
  rcases hch with rfl | rfl | rfl
  · left
    exact k37
  · have ht := hexDigitU_toNat (show b / 16 < 16 by omega)
    by_cases hm : b / 16 < 10
    · rw [if_pos hm] at ht
      right; left; omega
    · rw [if_neg hm] at ht
      right; right
      have : b / 16 < 16 := by omega
      omega
  · have ht := hexDigitU_toNat (show b % 16 < 16 by omega)
    by_cases hm : b % 16 < 10
    · rw [if_pos hm] at ht
      right; left; omega
    · rw [if_neg hm] at ht
      right; right
      have : b % 16 < 16 := by omega
      omega

theorem mem_quotePlus {k : Str} {ch : Char} (h : ch ∈ quotePlus k) :
    (97 ≤ ch.toNat ∧ ch.toNat ≤ 122) ∨ (65 ≤ ch.toNat ∧ ch.toNat ≤ 90) ∨
    (48 ≤ ch.toNat ∧ ch.toNat ≤ 57) ∨ ch.toNat = 95 ∨ ch.toNat = 46 ∨
    ch.toNat = 45 ∨ ch.toNat = 126 ∨ ch.toNat = 43 ∨ ch.toNat = 37 := by
  simp only [quotePlus, List.mem_flatten, List.mem_map] at h
  obtain ⟨l, ⟨c, hc, rfl⟩, hch⟩ := h
  unfold quotePlusChar at hch
  by_cases hsafe : alwaysSafe c = true
  · rw [if_pos hsafe] at hch
    simp only [List.mem_singleton] at hch
    subst hch
    rw [alwaysSafe_iff] at hsafe
    tauto
  · rw [if_neg hsafe] at hch
    by_cases hsp : c = ' '
    · rw [if_pos hsp] at hch
      simp only [List.mem_singleton] at hch
      subst hch
      have : ('+' : Char).toNat = 43 := by decide
      tauto
    · rw [if_neg hsp] at hch
      have := mem_pct_flatten (utf8EncodeChar_lt (char_toNat_lt c)) hch
      omega

/-- Unquoting undoes quoting: the core roundtrip of the query rewrite. -/
theorem unquotePlus_quotePlus (k : Str) : unquotePlus (quotePlus k) = k := by
  unfold unquotePlus unquote
  induction k with
  | nil => rfl
  | cons c rest ih =>
    have hq : quotePlus (c :: rest) = quotePlusChar c ++ quotePlus rest := by
      simp [quotePlus]
    rw [hq, List.map_append]
    by_cases hsafe : alwaysSafe c = true
    · have h1 : quotePlusChar c = [c] := by
        unfold quotePlusChar
        rw [if_pos hsafe]
      rw [alwaysSafe_iff] at hsafe
      have hplus : ¬c = '+' := by
        intro he
        subst he
        have : ('+' : Char).toNat = 43 := by decide
        omega
      have hpct : ¬c = '%' := by
        intro he
        subst he
        have : ('%' : Char).toNat = 37 := by decide
        omega
      have hlt : c.toNat < 128 := by omega
      rw [h1]
      simp only [List.map_cons, List.map_nil, List.cons_append, List.nil_append]
      rw [if_neg hplus, uqTokens_cons_plain hpct, if_pos hlt,
        uqDecode_byte_ascii hlt, Char.ofNat_toNat, ih]
    · by_cases hsp : c = ' '
      · subst hsp
        have h1 : quotePlusChar ' ' = ['+'] := by decide
        rw [h1]
        simp only [List.map_cons, List.map_nil, List.cons_append, List.nil_append]
        rw [if_pos trivial, uqTokens_cons_plain (by decide),
          if_pos (by decide), uqDecode_byte_ascii (by decide)]
        rw [show Char.ofNat ((' ' : Char).toNat) = ' ' from by decide, ih]
      · have h1 : quotePlusChar c =
            ((utf8EncodeChar c.toNat).map pctEncodeByte).flatten := by
          unfold quotePlusChar
          rw [if_neg hsafe, if_neg hsp]
        rw [h1]
        have hmap : (((utf8EncodeChar c.toNat).map pctEncodeByte).flatten).map
            (fun x => if x = '+' then ' ' else x) =
            ((utf8EncodeChar c.toNat).map pctEncodeByte).flatten := by
          apply map_self_of
          intro x hx
          have := mem_pct_flatten (utf8EncodeChar_lt (char_toNat_lt c)) hx
          have k43 : ('+' : Char).toNat = 43 := by decide
          rw [if_neg ?_]
          intro he
          rw [char_eq_iff_toNat, k43] at he
          omega
        rw [hmap, uqTokens_pct_flatten (utf8EncodeChar_lt (char_toNat_lt c)),
          uqDecode_utf8, ih]

/-- Parsing an encoded query recovers exactly the encoded pairs. -/
theorem parse_qsl_urlencode (pairs : List (Str × Str)) :
    parse_qsl (urlencode pairs) = pairs := by
  cases pairs with
  | nil => rfl
  | cons p ps =>
    have hnoamp : ∀ l ∈ (p :: ps).map
        (fun kv => quotePlus kv.1 ++ '=' :: quotePlus kv.2), '&' ∉ l := by
      intro l hl
      simp only [List.mem_map] at hl
      obtain ⟨kv, hkv, rfl⟩ := hl
      intro hmem
      have k38 : ('&' : Char).toNat = 38 := by decide
      rcases List.mem_append.mp hmem with hm | hm
      · have := mem_quotePlus hm
        omega
      · rcases List.mem_cons.mp hm with he | hm2
        · exact absurd he (by decide)
        · have := mem_quotePlus hm2
          omega
    have hne : (p :: ps).map
        (fun kv => quotePlus kv.1 ++ '=' :: quotePlus kv.2) ≠ [] := by simp
    have hsplit := List.splitOn_intercalate _ '&' hnoamp hne
    have hqs : List.intercalate ['&'] ((p :: ps).map
        (fun kv => quotePlus kv.1 ++ '=' :: quotePlus kv.2)) ≠ [] := by
      intro he
      rw [he] at hsplit
      have h0 : List.splitOn '&' ([] : Str) = [[]] := by decide
      rw [h0] at hsplit
      have h1 := congrArg List.head? hsplit
      simp at h1
    show parse_qsl (List.intercalate ['&'] _) = _
    unfold parse_qsl
    rw [if_neg hqs, hsplit, List.filterMap_map]
    apply filterMap_some_of
    intro kv _
    obtain ⟨a, t, he⟩ : ∃ a t,
        quotePlus kv.1 ++ '=' :: quotePlus kv.2 = a :: t := by
      cases hq : quotePlus kv.1 with
      | nil => exact ⟨'=', quotePlus kv.2, by simp [hq]⟩
      | cons x xs => exact ⟨x, xs ++ '=' :: quotePlus kv.2, by simp [hq]⟩
    simp only [Function.comp_apply]
    rw [he]
    dsimp only
    rw [← he]
    have hktw : ∀ ch ∈ quotePlus kv.1, (decide ¬(ch = '=')) = true := by
      intro ch hm
      have := mem_quotePlus hm
      have k61 : ('=' : Char).toNat = 61 := by decide
      simp only [decide_eq_true_eq]
      intro hch
      rw [char_eq_iff_toNat, k61] at hch
      omega
    have htake : (quotePlus kv.1 ++ '=' :: quotePlus kv.2).takeWhile
        (· ≠ '=') = quotePlus kv.1 := by
      rw [takeWhile_append_all hktw, List.takeWhile_cons,
        if_neg (by simp), List.append_nil]
    have hdrop : (quotePlus kv.1 ++ '=' :: quotePlus kv.2).dropWhile
        (· ≠ '=') = '=' :: quotePlus kv.2 := by
      rw [dropWhile_append_all hktw, List.dropWhile_cons, if_neg (by simp)]
    rw [htake, hdrop]
    simp only [List.tail_cons]
    rw [unquotePlus_quotePlus, unquotePlus_quotePlus]

theorem mem_intercalate_amp {parts : List Str} {ch : Char}
    (h : ch ∈ List.intercalate ['&'] parts) :
    ch = '&' ∨ ∃ p ∈ parts, ch ∈ p := by
  induction parts with
  | nil => simp [List.intercalate] at h
  | cons x xs ih =>
    cases xs with
    | nil =>
      simp [List.intercalate] at h
      exact Or.inr ⟨x, by simp, h⟩
    | cons y rest =>
      have he : List.intercalate ['&'] (x :: y :: rest) =
          x ++ '&' :: List.intercalate ['&'] (y :: rest) := by
        simp [List.intercalate, List.intersperse]
      rw [he] at h
      rcases List.mem_append.mp h with hm | hm
      · exact Or.inr ⟨x, by simp, hm⟩
      · rcases List.mem_cons.mp hm with rfl | hm2
        · exact Or.inl rfl
        · rcases ih hm2 with ha | ⟨p, hp, hchp⟩
          · exact Or.inl ha
          · exact Or.inr ⟨p, by simp [hp], hchp⟩

theorem mem_urlencode {q : List (Str × Str)} {ch : Char}
    (h : ch ∈ urlencode q) :
    (97 ≤ ch.toNat ∧ ch.toNat ≤ 122) ∨ (65 ≤ ch.toNat ∧ ch.toNat ≤ 90) ∨
    (48 ≤ ch.toNat ∧ ch.toNat ≤ 57) ∨ ch.toNat = 95 ∨ ch.toNat = 46 ∨
    ch.toNat = 45 ∨ ch.toNat = 126 ∨ ch.toNat = 43 ∨ ch.toNat = 37 ∨
    ch.toNat = 61 ∨ ch.toNat = 38 := by
  unfold urlencode at h
  rcases mem_intercalate_amp h with rfl | ⟨p, hp, hchp⟩
  · have : ('&' : Char).toNat = 38 := by decide
    omega
  · simp only [List.mem_map] at hp
    obtain ⟨kv, _, rfl⟩ := hp
    rcases List.mem_append.mp hchp with hm | hm
    · have := mem_quotePlus hm
      omega
    · rcases List.mem_cons.mp hm with rfl | hm2
      · have : ('=' : Char).toNat = 61 := by decide
        omega
      · have := mem_quotePlus hm2
        omega

theorem urlencode_no_hash (q : List (Str × Str)) : '#' ∉ urlencode q := by
  intro h
  have := mem_urlencode h
  have k : ('#' : Char).toNat = 35 := by decide
  omega

theorem urlencode_no_qmark (q : List (Str × Str)) : '?' ∉ urlencode q := by
  intro h
  have := mem_urlencode h
  have k : ('?' : Char).toNat = 63 := by decide
  omega

theorem urlencode_no_tabs (q : List (Str × Str)) :
    ∀ ch ∈ urlencode q, isUnsafeUrlChar ch = false := by
  intro ch h
  have := mem_urlencode h
  rw [← Bool.not_eq_true, isUnsafeUrlChar_iff]
  omega

/-- The query produced by the normalizer is a fixed point of the
parse-filter-encode rewrite. -/
theorem query_refold (q0 : Str) :
    urlencode ((parse_qsl (urlencode ((parse_qsl q0).filter
        fun kv => decide (kv.1 ∉ TRACKING_KEYS)))).filter
      fun kv => decide (kv.1 ∉ TRACKING_KEYS)) =
    urlencode ((parse_qsl q0).filter fun kv => decide (kv.1 ∉ TRACKING_KEYS)) := by
  rw [parse_qsl_urlencode, List.filter_filter]
  congr 1
  apply List.filter_congr
  intro x _
  rw [Bool.and_self]

/-! ### Scheme recognition facts -/

theorem schemeSplit_no_colon {u : Str} (h : ':' ∉ u) : schemeSplit u = ([], u) := by
  have hd : u.dropWhile (· ≠ ':') = [] := by
    apply dropWhile_all
    intro a ha
    simp only [ne_eq, decide_not, Bool.not_eq_eq_eq_not, Bool.not_true,
      decide_eq_false_iff_not]
    exact fun he => h (he ▸ ha)
  simp only [schemeSplit]
  rw [hd]

theorem schemeSplit_head_bad {c : Char} {t : Str}
    (hh : isAsciiAlpha c = false) : schemeSplit (c :: t) = ([], c :: t) := by
  simp only [schemeSplit]
  rcases hd : (c :: t).dropWhile (· ≠ ':') with _ | ⟨r, rt⟩
  · rfl
  · by_cases hc : c = ':'
    · have hpre : (c :: t).takeWhile (· ≠ ':') = [] := by
        rw [List.takeWhile_cons, if_neg (by simp [hc])]
      rw [hpre]
    · have hpre : (c :: t).takeWhile (· ≠ ':') = c :: t.takeWhile (· ≠ ':') := by
        rw [List.takeWhile_cons, if_pos (by simp [hc])]
      rw [hpre]
      dsimp only
      rw [if_neg (by simp [hh])]

theorem schemeSplit_mem_bad {u : Str} {ch : Char}
    (hm : ch ∈ u.takeWhile (· ≠ ':')) (hbad : schemeChar ch = false) :
    schemeSplit u = ([], u) := by
  simp only [schemeSplit]
  rcases hd : u.dropWhile (· ≠ ':') with _ | ⟨r, rt⟩
  · rfl
  · rcases hpre : u.takeWhile (· ≠ ':') with _ | ⟨c0, pp⟩
    · rfl
    · dsimp only
      rw [if_neg]
      simp only [Bool.and_eq_true, List.all_eq_true, not_and]
      intro _ hall
      rw [hpre] at hm
      exact absurd (hall ch hm) (by simp [hbad])

theorem schemeSplit_scheme {sch rest : Str} {c0 : Char} {st : Str}
    (hsch : sch = c0 :: st) (hcolon : ':' ∉ sch)
    (halpha : isAsciiAlpha c0 = true) (hall : sch.all schemeChar = true) :
    schemeSplit (sch ++ ':' :: rest) = (lowerStr sch, rest) := by
  have hmem : ∀ a ∈ sch, (decide ¬(a = ':')) = true := by
    intro a ha
    simp only [decide_eq_true_eq]
    exact fun he => hcolon (he ▸ ha)
  have hpre : (sch ++ ':' :: rest).takeWhile (· ≠ ':') = sch := by
    rw [takeWhile_append_all hmem, List.takeWhile_cons, if_neg (by simp),
      List.append_nil]
  have hrest : (sch ++ ':' :: rest).dropWhile (· ≠ ':') = ':' :: rest := by
    rw [dropWhile_append_all hmem, List.dropWhile_cons, if_neg (by simp)]
  subst hsch
  simp only [schemeSplit]
  rw [hpre, hrest]
  dsimp only
  rw [if_pos (by simp only [Bool.and_eq_true]; exact ⟨halpha, hall⟩)]

/-! ### Fragment, query and netloc segmentation of a reassembled URL -/

theorem fragQuery_split (body q : Str) (hbh : '#' ∉ body) (hbq : '?' ∉ body)
    (hqh : '#' ∉ q) (hqq : '?' ∉ q) :
    (((body ++ if q ≠ [] then '?' :: q else []).takeWhile (· ≠ '#')) =
      body ++ (if q ≠ [] then '?' :: q else [])) ∧
    ((body ++ if q ≠ [] then '?' :: q else []).dropWhile (· ≠ '#')).tail = [] ∧
    ((body ++ if q ≠ [] then '?' :: q else []).takeWhile (· ≠ '?') = body) ∧
    ((body ++ if q ≠ [] then '?' :: q else []).dropWhile (· ≠ '?')).tail = q := by
  have hbmem : ∀ a ∈ body, (decide ¬(a = '?')) = true := by
    intro a ha
    simp only [decide_eq_true_eq]
    exact fun he => hbq (he ▸ ha)
  have hall : ∀ a ∈ body ++ (if q ≠ [] then '?' :: q else []),
      (decide ¬(a = '#')) = true := by
    intro a ha
    simp only [decide_eq_true_eq]
    intro he
    subst he
    rcases List.mem_append.mp ha with hm | hm
    · exact hbh hm
    · by_cases hq : q = []
      · rw [if_neg (by simp [hq])] at hm
        simp at hm
      · rw [if_pos (by simp [hq])] at hm
        rcases List.mem_cons.mp hm with he2 | hm2
        · exact absurd he2 (by decide)
        · exact hqh hm2
  refine ⟨takeWhile_all hall, ?_, ?_, ?_⟩
  · rw [dropWhile_all hall]
    rfl
  · by_cases hq : q = []
    · rw [if_neg (by simp [hq]), List.append_nil]
      exact takeWhile_all hbmem
    · rw [if_pos (by simp [hq]), takeWhile_append_all hbmem,
        List.takeWhile_cons, if_neg (by simp), List.append_nil]
  · by_cases hq : q = []
    · rw [if_neg (by simp [hq]), List.append_nil, dropWhile_all hbmem, hq]
      rfl
    · rw [if_pos (by simp [hq]), dropWhile_append_all hbmem,
        List.dropWhile_cons, if_neg (by simp), List.tail_cons]

theorem netloc_split (nl rest : Str) (hnl : ∀ ch ∈ nl, netlocEnd ch = false)
    (hrest : rest = [] ∨ ∃ r0 rt, rest = r0 :: rt ∧ netlocEnd r0 = true) :
    ((nl ++ rest).takeWhile (fun c => !netlocEnd c) = nl) ∧
    ((nl ++ rest).dropWhile (fun c => !netlocEnd c) = rest) := by
  have hmem : ∀ a ∈ nl, (!netlocEnd a) = true := by
    intro a ha
    simp [hnl a ha]
  have hre : rest.takeWhile (fun c => !netlocEnd c) = [] ∧
      rest.dropWhile (fun c => !netlocEnd c) = rest := by
    rcases hrest with rfl | ⟨r0, rt, rfl, hr0⟩
    · exact ⟨rfl, rfl⟩
    · constructor
      · rw [List.takeWhile_cons, if_neg (by simp [hr0])]
      · rw [List.dropWhile_cons, if_neg (by simp [hr0])]
  constructor
  · rw [takeWhile_append_all hmem, hre.1, List.append_nil]
  · rw [dropWhile_append_all hmem, hre.2]

/-! ### Params split recovery -/

theorem rev_take_drop (q : Char → Bool) (p : Str) :
    (p.reverse.dropWhile q).reverse ++ (p.reverse.takeWhile q).reverse = p := by
  have h2 := congrArg List.reverse
    (List.takeWhile_append_dropWhile (p := q) (l := p.reverse))
  rw [List.reverse_append, List.reverse_reverse] at h2
  exact h2

theorem rev_append_cons (a b : Str) (ch : Char) :
    (a ++ ch :: b).reverse = b.reverse ++ ch :: a.reverse := by
  rw [List.reverse_append, List.reverse_cons, List.append_assoc,
    List.singleton_append]

theorem splitParams_recover (path prm : Str) (hprm : ∀ ch ∈ prm, ch ≠ '/')
    (hsemi1 : '/' ∈ path → ';' ∉ afterLastSlash path)
    (hsemi2 : '/' ∉ path → ';' ∉ path) :
    splitParams (path ++ ';' :: prm) = (path, prm) := by
  have hprm' : ∀ a ∈ prm.reverse, (decide ¬(a = '/')) = true := by
    intro a ha
    simp only [decide_eq_true_eq]
    exact hprm a (List.mem_reverse.mp ha)
  by_cases hs : '/' ∈ path
  · have hsm : ';' ∉ afterLastSlash path := hsemi1 hs
    have hafter' : ∀ a ∈ afterLastSlash path, (decide ¬(a = ';')) = true := by
      intro a ha
      simp only [decide_eq_true_eq]
      exact fun he => hsm (he ▸ ha)
    have hrev : (path ++ ';' :: prm).reverse.takeWhile (· ≠ '/') =
        prm.reverse ++ ';' :: path.reverse.takeWhile (· ≠ '/') := by
      rw [rev_append_cons, takeWhile_append_all hprm', List.takeWhile_cons,
        if_pos (by simp)]
    have hrevd : (path ++ ';' :: prm).reverse.dropWhile (· ≠ '/') =
        path.reverse.dropWhile (· ≠ '/') := by
      rw [rev_append_cons, dropWhile_append_all hprm', List.dropWhile_cons,
        if_pos (by simp)]
    have hafter : ((path ++ ';' :: prm).reverse.takeWhile (· ≠ '/')).reverse =
        afterLastSlash path ++ ';' :: prm := by
      rw [hrev, rev_append_cons, List.reverse_reverse, afterLastSlash]
    simp only [splitParams]
    rw [if_pos (List.mem_append.mpr (Or.inl hs)), hafter]
    rw [if_pos (List.mem_append.mpr (Or.inr (List.mem_cons_self ';' prm)))]
    rw [takeWhile_append_all hafter', dropWhile_append_all hafter',
      List.takeWhile_cons, if_neg (by simp), List.dropWhile_cons,
      if_neg (by simp), List.append_nil, List.tail_cons, hrevd]
    rw [Prod.mk.injEq]
    exact ⟨rev_take_drop _ path, rfl⟩
  · have hno : '/' ∉ path ++ ';' :: prm := by
      intro h
      rcases List.mem_append.mp h with h1 | h1
      · exact hs h1
      · rcases List.mem_cons.mp h1 with h2 | h2
        · exact absurd h2 (by decide)
        · exact hprm '/' h2 rfl
    have hpath' : ∀ a ∈ path, (decide ¬(a = ';')) = true := by
      intro a ha
      simp only [decide_eq_true_eq]
      exact fun he => (hsemi2 hs) (he ▸ ha)
    simp only [splitParams]
    rw [if_neg hno, takeWhile_append_all hpath', dropWhile_append_all hpath',
      List.takeWhile_cons, if_neg (by simp), List.dropWhile_cons,
      if_neg (by simp), List.append_nil, List.tail_cons]

theorem splitParams_noop (path : Str)
    (hsemi1 : '/' ∈ path → ';' ∉ afterLastSlash path)
    (hsemi2 : '/' ∉ path → ';' ∉ path) (hmem : ';' ∈ path) :
    splitParams path = (path, []) := by
  by_cases hs : '/' ∈ path
  · simp only [splitParams]
    rw [if_pos hs, if_neg (by rw [afterLastSlash] at hsemi1; exact hsemi1 hs)]
  · exact absurd hmem (hsemi2 hs)

theorem splitParams_recover_slash (path prm : Str)
    (hprm : ∀ ch ∈ prm, ch ≠ '/')
    (hsemi1 : '/' ∈ path → ';' ∉ afterLastSlash path)
    (hsemi2 : '/' ∉ path → ';' ∉ path) :
    splitParams ('/' :: (path ++ ';' :: prm)) = ('/' :: path, prm) := by
  have hprm' : ∀ a ∈ prm.reverse, (decide ¬(a = '/')) = true := by
    intro a ha
    simp only [decide_eq_true_eq]
    exact hprm a (List.mem_reverse.mp ha)
  have hrevfull : ('/' :: (path ++ ';' :: prm)).reverse =
      (path ++ ';' :: prm).reverse ++ ['/'] := List.reverse_cons _ _
  by_cases hs : '/' ∈ path
  · have hsm : ';' ∉ afterLastSlash path := hsemi1 hs
    have hafter' : ∀ a ∈ afterLastSlash path, (decide ¬(a = ';')) = true := by
      intro a ha
      simp only [decide_eq_true_eq]
      exact fun he => hsm (he ▸ ha)
    have hrev : ('/' :: (path ++ ';' :: prm)).reverse.takeWhile (· ≠ '/') =
        prm.reverse ++ ';' :: path.reverse.takeWhile (· ≠ '/') := by
      rw [hrevfull, rev_append_cons]
      simp only [List.append_assoc, List.cons_append]
      rw [takeWhile_append_all hprm', List.takeWhile_cons, if_pos (by simp)]
      rw [List.takeWhile_append]
      by_cases hw : (path.reverse.takeWhile (· ≠ '/')).length = path.reverse.length
      · exfalso
        have heq : path.reverse.takeWhile (· ≠ '/') = path.reverse :=
          (List.takeWhile_prefix _).eq_of_length hw
        have : ∀ a ∈ path.reverse, (decide ¬(a = '/')) = true :=
          List.takeWhile_eq_self_iff.mp heq
        have h2 := this '/' (List.mem_reverse.mpr hs)
        simp at h2
      · rw [if_neg hw]
    have hrevd : ('/' :: (path ++ ';' :: prm)).reverse.dropWhile (· ≠ '/') =
        path.reverse.dropWhile (· ≠ '/') ++ ['/'] := by
      rw [hrevfull, rev_append_cons]
      simp only [List.append_assoc, List.cons_append]
      rw [dropWhile_append_all hprm', List.dropWhile_cons, if_pos (by simp)]
      rw [List.dropWhile_append]
      by_cases hw : (path.reverse.dropWhile (· ≠ '/')).isEmpty = true
      · exfalso
        have heq : path.reverse.dropWhile (· ≠ '/') = [] := by
          simpa using hw
        have : ∀ a ∈ path.reverse, (decide ¬(a = '/')) = true :=
          List.dropWhile_eq_nil_iff.mp heq
        have h2 := this '/' (List.mem_reverse.mpr hs)
        simp at h2
      · rw [if_neg hw]
    have hafter : (('/' :: (path ++ ';' :: prm)).reverse.takeWhile
        (· ≠ '/')).reverse = afterLastSlash path ++ ';' :: prm := by
      rw [hrev, rev_append_cons, List.reverse_reverse, afterLastSlash]
    simp only [splitParams]
    rw [if_pos (List.mem_cons_self '/' _), hafter]
    rw [if_pos (List.mem_append.mpr (Or.inr (List.mem_cons_self ';' prm)))]
    rw [takeWhile_append_all hafter', dropWhile_append_all hafter',
      List.takeWhile_cons, if_neg (by simp), List.dropWhile_cons,
      if_neg (by simp), List.append_nil, List.tail_cons, hrevd]
    rw [Prod.mk.injEq]
    refine ⟨?_, rfl⟩
    rw [List.reverse_append, List.append_assoc]
    have hid : (path.reverse.dropWhile (· ≠ '/')).reverse ++ afterLastSlash path
        = path := by
      simp only [afterLastSlash]
      exact rev_take_drop _ path
    rw [hid]
    rfl
  · have hpath' : ∀ a ∈ path.reverse, (decide ¬(a = '/')) = true := by
      intro a ha
      simp only [decide_eq_true_eq]
      exact fun he => hs (he ▸ List.mem_reverse.mp ha)
    have hrev : ('/' :: (path ++ ';' :: prm)).reverse.takeWhile (· ≠ '/') =
        prm.reverse ++ ';' :: path.reverse := by
      rw [hrevfull, rev_append_cons]
      simp only [List.append_assoc, List.cons_append]
      rw [takeWhile_append_all hprm', List.takeWhile_cons, if_pos (by simp),
        takeWhile_append_all hpath', List.takeWhile_cons, if_neg (by simp),
        List.append_nil]
    have hrevd : ('/' :: (path ++ ';' :: prm)).reverse.dropWhile (· ≠ '/') =
        ['/'] := by
      rw [hrevfull, rev_append_cons]
      simp only [List.append_assoc, List.cons_append]
      rw [dropWhile_append_all hprm', List.dropWhile_cons, if_pos (by simp),
        dropWhile_append_all hpath', List.dropWhile_cons, if_neg (by simp)]
    have hafter : (('/' :: (path ++ ';' :: prm)).reverse.takeWhile
        (· ≠ '/')).reverse = path ++ ';' :: prm := by
      rw [hrev, rev_append_cons, List.reverse_reverse, List.reverse_reverse]
    have hpath2 : ∀ a ∈ path, (decide ¬(a = ';')) = true := by
      intro a ha
      simp only [decide_eq_true_eq]
      exact fun he => (hsemi2 hs) (he ▸ ha)
    simp only [splitParams]
    rw [if_pos (List.mem_cons_self '/' _), hafter]
    rw [if_pos (List.mem_append.mpr (Or.inr (List.mem_cons_self ';' prm)))]
    rw [takeWhile_append_all hpath2, dropWhile_append_all hpath2,
      List.takeWhile_cons, if_neg (by simp), List.dropWhile_cons,
      if_neg (by simp), List.append_nil, List.tail_cons, hrevd]
    rfl

theorem splitParams_noop_slash (path : Str)
    (hsemi1 : '/' ∈ path → ';' ∉ afterLastSlash path)
    (hsemi2 : '/' ∉ path → ';' ∉ path) (hmem : ';' ∈ path) :
    splitParams ('/' :: path) = ('/' :: path, []) := by
  by_cases hs : '/' ∈ path
  · have hsm : ';' ∉ afterLastSlash path := hsemi1 hs
    have hafter : (('/' :: path).reverse.takeWhile (· ≠ '/')).reverse =
        afterLastSlash path := by
      rw [List.reverse_cons, List.takeWhile_append]
      by_cases hw : (path.reverse.takeWhile (· ≠ '/')).length = path.reverse.length
      · exfalso
        have heq : path.reverse.takeWhile (· ≠ '/') = path.reverse :=
          (List.takeWhile_prefix _).eq_of_length hw
        have : ∀ a ∈ path.reverse, (decide ¬(a = '/')) = true :=
          List.takeWhile_eq_self_iff.mp heq
        have h2 := this '/' (List.mem_reverse.mpr hs)
        simp at h2
      · rw [if_neg hw]
        rfl
    simp only [splitParams]
    rw [if_pos (List.mem_cons_self '/' _), hafter, if_neg hsm]
  · exact absurd hmem (hsemi2 hs)

/-! ### Leading-slash bookkeeping and scheme-split inversion -/

theorem schemeLike_mem_bad {l : Str} {ch : Char} (hm : ch ∈ l)
    (hbad : schemeChar ch = false) : schemeLike l = false := by
  cases l with
  | nil => rfl
  | cons c0 t =>
    rcases hall : (c0 :: t).all schemeChar with _ | _
    · simp [schemeLike, hall]
    · exact absurd (List.all_eq_true.mp hall ch hm) (by simp [hbad])

theorem schemeSplit_not_schemeLike {u : Str}
    (h : schemeLike (u.takeWhile (· ≠ ':')) = false) :
    schemeSplit u = ([], u) := by
  simp only [schemeSplit]
  rcases hd : u.dropWhile (· ≠ ':') with _ | ⟨r, rt⟩
  · rfl
  · rcases hpre : u.takeWhile (· ≠ ':') with _ | ⟨c0, pp⟩
    · rfl
    · dsimp only
      rw [hpre] at h
      simp only [schemeLike] at h
      have h2 : ¬((isAsciiAlpha c0 && (c0 :: pp).all schemeChar) = true) := by
        rw [h]
        exact Bool.false_ne_true
      rw [if_neg h2]

theorem takeWhile_append_stop {p : Char → Bool} {l₁ : Str} (l₂ : Str)
    (h : ∃ a ∈ l₁, p a = false) :
    (l₁ ++ l₂).takeWhile p = l₁.takeWhile p := by
  induction l₁ with
  | nil =>
    rcases h with ⟨a, ha, _⟩
    simp at ha
  | cons c t ih =>
    rcases hpc : p c with _ | _
    · rw [List.cons_append, List.takeWhile_cons, if_neg (by simp [hpc]),
        List.takeWhile_cons, if_neg (by simp [hpc])]
    · rcases h with ⟨a, ha, hpa⟩
      rcases List.mem_cons.mp ha with rfl | ha2
      · rw [hpc] at hpa
        cases hpa
      · rw [List.cons_append, List.takeWhile_cons, if_pos (by simp [hpc]),
          List.takeWhile_cons, if_pos (by simp [hpc]), ih ⟨a, ha2, hpa⟩]

theorem leads1_append (x y : Str) (hy : leadsWith y ['/'] = false) :
    leadsWith (x ++ y) ['/'] = leadsWith x ['/'] := by
  cases x with
  | nil => simpa using hy
  | cons a t => simp [leadsWith]

theorem leads2_append (x y : Str) (hy : leadsWith y ['/'] = false) :
    leadsWith (x ++ y) ['/', '/'] = leadsWith x ['/', '/'] := by
  match x with
  | [] =>
    cases y with
    | nil => rfl
    | cons b s =>
      have hb : (decide (b = '/')) = false := by simpa [leadsWith] using hy
      simp [leadsWith, hb]
  | [a] => simp [leadsWith, hy]
  | a :: b :: t => simp [leadsWith]

theorem leads1_shape {x : Str} (h : leadsWith x ['/'] = true) :
    ∃ t, x = '/' :: t := by
  cases x with
  | nil => simp [leadsWith] at h
  | cons a t =>
    refine ⟨t, ?_⟩
    simp only [leadsWith, Bool.and_eq_true, decide_eq_true_eq] at h
    rw [h.1]

theorem leads2_of_cons {x : Str} : leadsWith ('/' :: '/' :: x) ['/', '/'] = true := by
  simp [leadsWith]

theorem leads1_of_cons {x : Str} : leadsWith ('/' :: x) ['/'] = true := by
  simp [leadsWith]

theorem leads2_cons_slash (x : Str) :
    leadsWith ('/' :: x) ['/', '/'] = leadsWith x ['/'] := by
  cases x with
  | nil => simp [leadsWith]
  | cons a t => simp [leadsWith]

/-! ### Re-splitting a reassembled URL -/

theorem urlsplit_clean {m : Str}
    (hhead : ∀ h : m ≠ [], isC0OrSpace (m.head h) = false)
    (htabs : ∀ ch ∈ m, isUnsafeUrlChar ch = false) :
    (m.dropWhile isC0OrSpace).filter (fun c => !isUnsafeUrlChar c) = m := by
  cases m with
  | nil => rfl
  | cons a t =>
    have h0 : isC0OrSpace a = false := hhead (by simp)
    rw [dropWhile_eq_self_of_head h0]
    exact List.filter_eq_self.mpr fun ch hc => by simp [htabs ch hc]

theorem unsplit_resplit_auth (sch nl pfull q : Str)
    (hsch : sch = [] ∨ (schemeLike sch = true ∧ ':' ∉ sch ∧ lowerStr sch = sch))
    (hnl : ∀ ch ∈ nl, netlocEnd ch = false)
    (hbr : ('[' ∈ nl) ↔ (']' ∈ nl))
    (hpfh : '#' ∉ pfull) (hpfq : '?' ∉ pfull)
    (hqh : '#' ∉ q) (hq2 : '?' ∉ q)
    (htabs : ∀ ch ∈ sch ++ (nl ++ (pfull ++ q)), isUnsafeUrlChar ch = false)
    (hA : nl ≠ [] ∨ (sch ≠ [] ∧ sch ∈ usesNetloc ∧
      leadsWith pfull "//".data = false)) :
    urlsplit (urlunsplit sch nl pfull q []) =
      some ⟨sch, nl,
        (if pfull ≠ [] && !leadsWith pfull "/".data then '/' :: pfull else pfull),
        [], q, []⟩ := by
  have hts : ∀ ch ∈ sch, isUnsafeUrlChar ch = false :=
    fun ch hc => htabs ch (by simp [hc])
  have htn : ∀ ch ∈ nl, isUnsafeUrlChar ch = false :=
    fun ch hc => htabs ch (by simp [hc])
  have htp : ∀ ch ∈ pfull, isUnsafeUrlChar ch = false :=
    fun ch hc => htabs ch (by simp [hc])
  have htq : ∀ ch ∈ q, isUnsafeUrlChar ch = false :=
    fun ch hc => htabs ch (by simp [hc])
  have hAbool : (decide (nl ≠ []) || (decide (sch ≠ []) &&
      decide (sch ∈ usesNetloc) && !leadsWith pfull "//".data)) = true := by
    rcases hA with h | ⟨h1, h2, h3⟩
    · simp [h]
    · simp [h1, h2, h3]
  obtain ⟨u1, hu1, hshape⟩ :
      ∃ u1, (if pfull ≠ [] && !leadsWith pfull "/".data then '/' :: pfull
        else pfull) = u1 ∧ (u1 = [] ∨ ∃ t, u1 = '/' :: t) := by
    by_cases hc : (pfull ≠ [] && !leadsWith pfull "/".data) = true
    · exact ⟨'/' :: pfull, if_pos hc, Or.inr ⟨pfull, rfl⟩⟩
    · refine ⟨pfull, if_neg hc, ?_⟩
      cases hpf : pfull with
      | nil => exact Or.inl rfl
      | cons p0 pt =>
        right
        have hld : leadsWith pfull "/".data = true := by
          rcases hl : leadsWith pfull "/".data with _ | _
          · exfalso
            apply hc
            simp only [Bool.and_eq_true, Bool.not_eq_true', decide_eq_true_eq]
            exact ⟨by rw [hpf]; simp, hl⟩
          · rfl
        obtain ⟨t, ht⟩ := leads1_shape hld
        exact ⟨t, hpf ▸ ht⟩
  have hmemu1 : ∀ ch ∈ u1, ch ∈ pfull ∨ ch = '/' := by
    intro ch hc
    rw [← hu1] at hc
    split at hc
    · rcases List.mem_cons.mp hc with rfl | h
      · exact Or.inr rfl
      · exact Or.inl h
    · exact Or.inl hc
  have htu1 : ∀ ch ∈ u1, isUnsafeUrlChar ch = false := by
    intro ch hc
    rcases hmemu1 ch hc with h | rfl
    · exact htp ch h
    · decide
  have hu1h : '#' ∉ u1 := by
    intro hc
    rcases hmemu1 '#' hc with h | h
    · exact hpfh h
    · exact absurd h (by decide)
  have hu1q : '?' ∉ u1 := by
    intro hc
    rcases hmemu1 '?' hc with h | h
    · exact hpfq h
    · exact absurd h (by decide)
  have hqext : ∀ ch ∈ (if q ≠ [] then '?' :: q else []),
      isUnsafeUrlChar ch = false := by
    intro ch hc
    split at hc
    · rcases List.mem_cons.mp hc with rfl | h
      · decide
      · exact htq ch h
    · simp at hc
  have hREST : ∀ ch ∈ ('/' :: '/' :: ((nl ++ u1) ++
      (if q ≠ [] then '?' :: q else []))), isUnsafeUrlChar ch = false := by
    intro ch hc
    rcases List.mem_cons.mp hc with rfl | hc
    · decide
    rcases List.mem_cons.mp hc with rfl | hc
    · decide
    rcases List.mem_append.mp hc with hc | hc
    · rcases List.mem_append.mp hc with hc | hc
      · exact htn ch hc
      · exact htu1 ch hc
    · exact hqext ch hc
  have hrest : ((u1 ++ (if q ≠ [] then '?' :: q else [])) = []) ∨
      ∃ r0 rt, u1 ++ (if q ≠ [] then '?' :: q else []) = r0 :: rt ∧
        netlocEnd r0 = true := by
    rcases hshape with rfl | ⟨t, rfl⟩
    · by_cases hq : q = []
      · left
        rw [if_neg (by simp [hq])]
        rfl
      · right
        refine ⟨'?', q, ?_, by decide⟩
        rw [if_pos (by simp [hq])]
        rfl
    · exact Or.inr ⟨'/', t ++ (if q ≠ [] then '?' :: q else []), by simp,
        by decide⟩
  have hnlsplit := netloc_split nl (u1 ++ (if q ≠ [] then '?' :: q else []))
    hnl hrest
  have hfq := fragQuery_split u1 q hu1h hu1q hqh hq2
  have hbrneg : ¬((decide ('[' ∈ nl) && decide (']' ∉ nl) ||
      (decide (']' ∈ nl) && decide ('[' ∉ nl))) = true) := by
    intro hcond
    simp only [Bool.or_eq_true, Bool.and_eq_true, decide_eq_true_eq] at hcond
    rcases hcond with ⟨h1, h2⟩ | ⟨h1, h2⟩
    · exact h2 (hbr.mp h1)
    · exact h2 (hbr.mpr h1)
  rw [hu1]
  rcases hsch with rfl | ⟨hslike, hscol, hslow⟩
  · have hm0 : urlunsplit [] nl pfull q [] =
        '/' :: '/' :: ((nl ++ u1) ++ (if q ≠ [] then '?' :: q else [])) := by
      simp only [urlunsplit]
      rw [if_pos hAbool, hu1, if_neg (fun h => h rfl)]
      by_cases hq : q = []
      · rw [if_neg (by simp [hq]), if_neg (fun h => h rfl),
          if_neg (by simp [hq]), List.append_nil]
      · rw [if_pos (by simp [hq]), if_neg (fun h => h rfl),
          if_pos (by simp [hq])]
        simp [List.cons_append]
    rw [hm0]
    simp only [urlsplit]
    rw [@urlsplit_clean ('/' :: '/' :: ((nl ++ u1) ++
        (if q ≠ [] then '?' :: q else [])))
      (fun h => (by decide : isC0OrSpace '/' = false)) hREST]
    rw [schemeSplit_head_bad (by decide)]
    dsimp only
    rw [if_pos (show leadsWith ('/' :: '/' :: ((nl ++ u1) ++
        (if q ≠ [] then '?' :: q else []))) "//".data = true
      from leads2_of_cons)]
    simp only [List.drop_succ_cons, List.drop_zero]
    rw [List.append_assoc]
    simp only [hnlsplit.1, hnlsplit.2]
    rw [if_neg hbrneg]
    simp only [hfq.1, hfq.2.1, hfq.2.2.1, hfq.2.2.2]
  · obtain ⟨c0, st, rfl⟩ : ∃ c0 st, sch = c0 :: st := by
      cases sch with
      | nil => simp [schemeLike] at hslike
      | cons a t => exact ⟨a, t, rfl⟩
    have hhead1 : isAsciiAlpha c0 = true ∧ (c0 :: st).all schemeChar = true := by
      simpa [schemeLike] using hslike
    have hc0 : isC0OrSpace c0 = false := by
      have h1 := (isAsciiAlpha_iff c0).mp hhead1.1
      simp only [isC0OrSpace, decide_eq_false_iff_not]
      omega
    have hm1 : urlunsplit (c0 :: st) nl pfull q [] =
        (c0 :: st) ++ ':' :: ('/' :: '/' :: ((nl ++ u1) ++
          (if q ≠ [] then '?' :: q else []))) := by
      simp only [urlunsplit]
      rw [if_pos hAbool, hu1,
        if_pos (show (c0 :: st) ≠ [] from by simp),
        if_neg (show ¬(([] : Str) ≠ []) from fun h => h rfl)]
      by_cases hq : q = []
      · rw [if_neg (show ¬(q ≠ []) from by simp [hq]),
          if_neg (show ¬(q ≠ []) from by simp [hq]), List.append_nil]
      · rw [if_pos (show q ≠ [] from hq), if_pos (show q ≠ [] from hq)]
        simp [List.cons_append, List.append_assoc]
    rw [hm1]
    simp only [urlsplit]
    have htm : ∀ ch ∈ (c0 :: st) ++ ':' :: ('/' :: '/' :: ((nl ++ u1) ++
        (if q ≠ [] then '?' :: q else []))), isUnsafeUrlChar ch = false := by
      intro ch hc
      rcases List.mem_append.mp hc with hc | hc
      · exact hts ch hc
      rcases List.mem_cons.mp hc with rfl | hc
      · decide
      · exact hREST ch hc
    rw [@urlsplit_clean ((c0 :: st) ++ ':' :: ('/' :: '/' :: ((nl ++ u1) ++
        (if q ≠ [] then '?' :: q else [])))) (fun h => hc0) htm]
    rw [schemeSplit_scheme rfl hscol hhead1.1 hhead1.2, hslow]
    dsimp only
    rw [if_pos (show leadsWith ('/' :: '/' :: ((nl ++ u1) ++
        (if q ≠ [] then '?' :: q else []))) "//".data = true
      from leads2_of_cons)]
    simp only [List.drop_succ_cons, List.drop_zero]
    rw [List.append_assoc]
    simp only [hnlsplit.1, hnlsplit.2]
    rw [if_neg hbrneg]
    simp only [hfq.1, hfq.2.1, hfq.2.2.1, hfq.2.2.2]

theorem bool_ne_true {b : Bool} (h : b = false) : ¬(b = true) := by
  rw [h]
  exact Bool.false_ne_true

theorem unsplit_resplit_noauth (sch pfull q : Str)
    (hsch : sch = [] ∨ (schemeLike sch = true ∧ ':' ∉ sch ∧ lowerStr sch = sch))
    (hpfh : '#' ∉ pfull) (hpfq : '?' ∉ pfull)
    (hqh : '#' ∉ q) (hq2 : '?' ∉ q)
    (htabs : ∀ ch ∈ sch ++ (pfull ++ q), isUnsafeUrlChar ch = false)
    (hlead2 : leadsWith pfull "//".data = false)
    (hhead : sch = [] → ∀ h : pfull ≠ [], isC0OrSpace (pfull.head h) = false)
    (hscheme0 : sch = [] →
      schemeSplit (pfull ++ (if q ≠ [] then '?' :: q else [])) =
        ([], pfull ++ (if q ≠ [] then '?' :: q else [])))
    (hA : sch = [] ∨ sch ∉ usesNetloc) :
    urlsplit (urlunsplit sch [] pfull q []) = some ⟨sch, [], pfull, [], q, []⟩ := by
  have hts : ∀ ch ∈ sch, isUnsafeUrlChar ch = false :=
    fun ch hc => htabs ch (by simp [hc])
  have htp : ∀ ch ∈ pfull, isUnsafeUrlChar ch = false :=
    fun ch hc => htabs ch (by simp [hc])
  have htq : ∀ ch ∈ q, isUnsafeUrlChar ch = false :=
    fun ch hc => htabs ch (by simp [hc])
  have hAbn : ¬((decide (([] : Str) ≠ []) || (decide (sch ≠ []) &&
      decide (sch ∈ usesNetloc) && !leadsWith pfull "//".data)) = true) := by
    intro hcond
    simp only [Bool.or_eq_true, Bool.and_eq_true, decide_eq_true_eq] at hcond
    rcases hcond with h | ⟨⟨h1, h2⟩, h3⟩
    · exact h rfl
    · rcases hA with rfl | hnu
      · exact h1 rfl
      · exact hnu h2
  have hql : leadsWith (if q ≠ [] then '?' :: q else []) ['/'] = false := by
    by_cases hq : q = []
    · rw [if_neg (show ¬(q ≠ []) from by simp [hq])]
      rfl
    · rw [if_pos (show q ≠ [] from hq)]
      simp [leadsWith]
  have hl2 : leadsWith (pfull ++ (if q ≠ [] then '?' :: q else []))
      "//".data = false := by
    rw [show ("//".data : Str) = ['/', '/'] from rfl, leads2_append _ _ hql]
    exact hlead2
  rcases hsch with rfl | ⟨hslike, hscol, hslow⟩
  · have hm0 : urlunsplit [] [] pfull q [] =
        pfull ++ (if q ≠ [] then '?' :: q else []) := by
      simp only [urlunsplit]
      rw [if_neg hAbn,
        if_neg (show ¬(([] : Str) ≠ []) from fun h => h rfl),
        if_neg (show ¬(([] : Str) ≠ []) from fun h => h rfl)]
      by_cases hq : q = []
      · rw [if_neg (show ¬(q ≠ []) from by simp [hq]),
          if_neg (show ¬(q ≠ []) from by simp [hq]), List.append_nil]
      · rw [if_pos (show q ≠ [] from hq), if_pos (show q ≠ [] from hq)]
    cases pfull with
    | nil =>
      by_cases hq : q = []
      · subst hq
        decide
      · rw [hm0, List.nil_append, if_pos (show q ≠ [] from hq)]
        simp only [urlsplit]
        have htq' : ∀ ch ∈ '?' :: q, isUnsafeUrlChar ch = false := by
          intro ch hc
          rcases List.mem_cons.mp hc with rfl | hc
          · decide
          · exact htq ch hc
        rw [@urlsplit_clean ('?' :: q)
          (fun h => (by decide : isC0OrSpace '?' = false)) htq']
        rw [schemeSplit_head_bad (by decide : isAsciiAlpha '?' = false)]
        dsimp only
        rw [if_neg (bool_ne_true (show leadsWith ('?' :: q) "//".data = false
          from by simp [leadsWith]))]
        have hfq := fragQuery_split [] q (by simp) (by simp) hqh hq2
        rw [if_pos (show q ≠ [] from hq)] at hfq
        rw [List.nil_append] at hfq
        simp only [hfq.1, hfq.2.1, hfq.2.2.1, hfq.2.2.2]
    | cons p0 pt =>
      rw [hm0]
      simp only [urlsplit]
      have htm : ∀ ch ∈ (p0 :: pt) ++ (if q ≠ [] then '?' :: q else []),
          isUnsafeUrlChar ch = false := by
        intro ch hc
        rcases List.mem_append.mp hc with hc | hc
        · exact htp ch hc
        · split at hc
          · rcases List.mem_cons.mp hc with rfl | hc
            · decide
            · exact htq ch hc
          · simp at hc
      rw [@urlsplit_clean ((p0 :: pt) ++ (if q ≠ [] then '?' :: q else []))
        (fun h => hhead rfl (by simp)) htm]
      rw [hscheme0 rfl]
      dsimp only
      rw [if_neg (bool_ne_true (show leadsWith ((p0 :: pt) ++
        (if q ≠ [] then '?' :: q else [])) "//".data = false from hl2))]
      have hfq := fragQuery_split (p0 :: pt) q hpfh hpfq hqh hq2
      simp only [hfq.1, hfq.2.1, hfq.2.2.1, hfq.2.2.2]
  · obtain ⟨c0, st, rfl⟩ : ∃ c0 st, sch = c0 :: st := by
      cases sch with
      | nil => simp [schemeLike] at hslike
      | cons a t => exact ⟨a, t, rfl⟩
    have hhead1 : isAsciiAlpha c0 = true ∧ (c0 :: st).all schemeChar = true := by
      simpa [schemeLike] using hslike
    have hc0 : isC0OrSpace c0 = false := by
      have h1 := (isAsciiAlpha_iff c0).mp hhead1.1
      simp only [isC0OrSpace, decide_eq_false_iff_not]
      omega
    have hm1 : urlunsplit (c0 :: st) [] pfull q [] =
        (c0 :: st) ++ ':' :: (pfull ++ (if q ≠ [] then '?' :: q else [])) := by
      simp only [urlunsplit]
      rw [if_neg hAbn,
        if_pos (show (c0 :: st) ≠ [] from by simp),
        if_neg (show ¬(([] : Str) ≠ []) from fun h => h rfl)]
      by_cases hq : q = []
      · rw [if_neg (show ¬(q ≠ []) from by simp [hq]),
          if_neg (show ¬(q ≠ []) from by simp [hq]), List.append_nil]
      · rw [if_pos (show q ≠ [] from hq), if_pos (show q ≠ [] from hq)]
        simp [List.cons_append, List.append_assoc]
    rw [hm1]
    simp only [urlsplit]
    have htm : ∀ ch ∈ (c0 :: st) ++ ':' :: (pfull ++
        (if q ≠ [] then '?' :: q else [])), isUnsafeUrlChar ch = false := by
      intro ch hc
      rcases List.mem_append.mp hc with hc | hc
      · exact hts ch hc
      rcases List.mem_cons.mp hc with rfl | hc
      · decide
      rcases List.mem_append.mp hc with hc | hc
      · exact htp ch hc
      · split at hc
        · rcases List.mem_cons.mp hc with rfl | hc
          · decide
          · exact htq ch hc
        · simp at hc
    rw [@urlsplit_clean ((c0 :: st) ++ ':' :: (pfull ++
        (if q ≠ [] then '?' :: q else []))) (fun h => hc0) htm]
    rw [schemeSplit_scheme rfl hscol hhead1.1 hhead1.2, hslow]
    dsimp only
    rw [if_neg (bool_ne_true (show leadsWith (pfull ++
      (if q ≠ [] then '?' :: q else [])) "//".data = false from hl2))]
    have hfq := fragQuery_split pfull q hpfh hpfq hqh hq2
    simp only [hfq.1, hfq.2.1, hfq.2.2.1, hfq.2.2.2]

theorem schemeLike_no_colon {s : Str} (h : schemeLike s = true) : ':' ∉ s := by
  intro hm
  cases s with
  | nil => simp [schemeLike] at h
  | cons a t =>
    have hall : (a :: t).all schemeChar = true := by
      simp only [schemeLike, Bool.and_eq_true] at h
      exact h.2
    exact absurd (List.all_eq_true.mp hall ':' hm) (by decide)

theorem schemeSplit_sep {path T : Str} {sep : Char} (hsep : sep ≠ ':')
    (hbad : schemeChar sep = false) (hcp : ':' ∉ path) :
    schemeSplit (path ++ sep :: T) = ([], path ++ sep :: T) := by
  by_cases hct : ':' ∈ sep :: T
  · apply schemeSplit_not_schemeLike
    have hall : ∀ a ∈ path, (decide ¬(a = ':')) = true := by
      intro a ha
      simp only [decide_eq_true_eq]
      exact fun he => hcp (he ▸ ha)
    rw [takeWhile_append_all hall, List.takeWhile_cons, if_pos (by simp [hsep])]
    exact schemeLike_mem_bad
      (List.mem_append.mpr (Or.inr (List.mem_cons_self _ _))) hbad
  · apply schemeSplit_no_colon
    intro hc
    rcases List.mem_append.mp hc with h | h
    · exact hcp h
    · exact hct h

theorem schemeSplit_path_colon {path : Str} (T : Str) (hcp : ':' ∈ path)
    (hlike : schemeLike (path.takeWhile (· ≠ ':')) = false) :
    schemeSplit (path ++ T) = ([], path ++ T) := by
  apply schemeSplit_not_schemeLike
  rw [takeWhile_append_stop T ⟨':', hcp, by simp⟩]
  exact hlike

theorem unsplit_insert_slash (sch nl pfull q : Str) (hpf : pfull ≠ [])
    (hlead : leadsWith pfull "/".data = false)
    (hA : nl ≠ [] ∨ (sch ≠ [] ∧ sch ∈ usesNetloc ∧
      leadsWith pfull "//".data = false)) :
    urlunsplit sch nl ('/' :: pfull) q [] = urlunsplit sch nl pfull q [] := by
  have hAbool : (decide (nl ≠ []) || (decide (sch ≠ []) &&
      decide (sch ∈ usesNetloc) && !leadsWith pfull "//".data)) = true := by
    rcases hA with h | ⟨h1, h2, h3⟩
    · simp [h]
    · simp [h1, h2, h3]
  have hA2 : (decide (nl ≠ []) || (decide (sch ≠ []) &&
      decide (sch ∈ usesNetloc) && !leadsWith ('/' :: pfull) "//".data)) = true := by
    rcases hA with h | ⟨h1, h2, h3⟩
    · simp [h]
    · have hl : leadsWith ('/' :: pfull) "//".data = false := by
        rw [show ("//".data : Str) = ['/', '/'] from rfl, leads2_cons_slash]
        exact hlead
      simp [h1, h2, hl]
  simp only [urlunsplit]
  rw [if_pos hAbool, if_pos hA2]
  rw [if_pos (show (pfull ≠ [] && !leadsWith pfull "/".data) = true from by
      simp [hpf, hlead]),
    if_neg (show ¬(('/' :: pfull ≠ [] && !leadsWith ('/' :: pfull) "/".data)
      = true) from by simp [leadsWith])]

theorem urlparse_roundtrip (c : ParseResult) (g : GoodComps c) :
    ∃ p2 pr2 : Str,
      urlparse (urlunparse c.scheme c.netloc c.path c.params c.query []) =
        some ⟨c.scheme, c.netloc, p2, pr2, c.query, []⟩ ∧
      urlunparse c.scheme c.netloc p2 pr2 c.query [] =
        urlunparse c.scheme c.netloc c.path c.params c.query [] := by
  obtain ⟨sch, nl, path, prm, q, fr⟩ := c
  obtain rfl : fr = [] := g.frag_empty
  have hsch2 : sch = [] ∨
      (schemeLike sch = true ∧ ':' ∉ sch ∧ lowerStr sch = sch) := by
    rcases g.scheme_ok with h | ⟨h1, h2⟩
    · exact Or.inl h
    · exact Or.inr ⟨h1, schemeLike_no_colon h1, h2⟩
  have hnlc : ∀ ch ∈ nl, netlocEnd ch = false := g.netloc_clean
  have hbrk : ('[' ∈ nl) ↔ (']' ∈ nl) := g.netloc_brackets
  have hph : '#' ∉ path := g.path_no_hash
  have hpq : '?' ∉ path := g.path_no_q
  have hqh : '#' ∉ q := g.query_no_hash
  have hq2 : '?' ∉ q := g.query_no_q
  have hprc : ∀ ch ∈ prm, ch ≠ '/' ∧ ch ≠ '?' ∧ ch ≠ '#' := g.params_clean
  have htabs0 := g.no_tabs
  obtain ⟨pfull, hpfeq, hpfm⟩ :
      ∃ pfull, (if prm ≠ [] then path ++ ';' :: prm else path) = pfull ∧
        ∀ ch ∈ pfull, ch ∈ path ∨ ch = ';' ∨ ch ∈ prm := by
    by_cases hprm : prm = []
    · exact ⟨path, if_neg (by simp [hprm]), fun ch hc => Or.inl hc⟩
    · refine ⟨path ++ ';' :: prm, if_pos (by simp [hprm]), ?_⟩
      intro ch hc
      rcases List.mem_append.mp hc with h | h
      · exact Or.inl h
      · rcases List.mem_cons.mp h with rfl | h
        · exact Or.inr (Or.inl rfl)
        · exact Or.inr (Or.inr h)
  have hpfh : '#' ∉ pfull := by
    intro hc
    rcases hpfm '#' hc with h | h | h
    · exact hph h
    · exact absurd h (by decide)
    · exact (hprc '#' h).2.2 rfl
  have hpfq : '?' ∉ pfull := by
    intro hc
    rcases hpfm '?' hc with h | h | h
    · exact hpq h
    · exact absurd h (by decide)
    · exact (hprc '?' h).2.1 rfl
  have htabsM : ∀ ch, (ch ∈ sch ∨ ch ∈ nl ∨ ch ∈ pfull ∨ ch ∈ q) →
      isUnsafeUrlChar ch = false := by
    intro ch hc
    rcases hc with h | h | h | h
    · exact htabs0 ch (by simp [h])
    · exact htabs0 ch (by simp [h])
    · rcases hpfm ch h with h2 | h2 | h2
      · exact htabs0 ch (by simp [h2])
      · subst h2
        decide
      · exact htabs0 ch (by simp [h2])
    · exact htabs0 ch (by simp [h])
  have hneq : urlunparse sch nl path prm q [] = urlunsplit sch nl pfull q [] := by
    simp only [urlunparse]
    rw [hpfeq]
  have hsemi1 : sch ∈ usesParams → '/' ∈ path → ';' ∉ afterLastSlash path :=
    fun hu hs => (g.params_semi hu).1 hs
  have hsemi2 : sch ∈ usesParams → '/' ∉ path → ';' ∉ path :=
    fun hu hs => (g.params_semi hu).2 hs
  have hprmslash : ∀ ch ∈ prm, ch ≠ '/' := fun ch hc => (hprc ch hc).1
  by_cases hauth : nl ≠ [] ∨ (sch ≠ [] ∧ sch ∈ usesNetloc ∧
      leadsWith pfull "//".data = false)
  · -- authority branch
    have htabsA : ∀ ch ∈ sch ++ (nl ++ (pfull ++ q)),
        isUnsafeUrlChar ch = false := by
      intro ch hc
      apply htabsM ch
      rcases List.mem_append.mp hc with h | h
      · exact Or.inl h
      rcases List.mem_append.mp h with h | h
      · exact Or.inr (Or.inl h)
      rcases List.mem_append.mp h with h | h
      · exact Or.inr (Or.inr (Or.inl h))
      · exact Or.inr (Or.inr (Or.inr h))
    have hsplit := unsplit_resplit_auth sch nl pfull q hsch2 hnlc hbrk
      hpfh hpfq hqh hq2 htabsA hauth
    by_cases hins : (pfull ≠ [] && !leadsWith pfull "/".data) = true
    · rw [if_pos hins] at hsplit
      have hpfne : pfull ≠ [] := by
        simp only [Bool.and_eq_true, decide_eq_true_eq] at hins
        exact hins.1
      have hpflead : leadsWith pfull "/".data = false := by
        simp only [Bool.and_eq_true, Bool.not_eq_true', decide_eq_true_eq]
          at hins
        exact hins.2
      have hins_eq : urlunsplit sch nl ('/' :: pfull) q [] =
          urlunsplit sch nl pfull q [] :=
        unsplit_insert_slash sch nl pfull q hpfne hpflead hauth
      by_cases hprm : prm = []
      · subst hprm
        obtain rfl : path = pfull := by
          rw [← hpfeq, if_neg (by simp)]
        refine ⟨'/' :: path, [], ?_, ?_⟩
        · simp only [urlparse]
          rw [hneq, hsplit]
          simp only [Option.map_some']
          by_cases hgate : (decide (sch ∈ usesParams) &&
              decide (';' ∈ ('/' :: path))) = true
          · rw [if_pos hgate]
            have hg1 : sch ∈ usesParams := by
              simp only [Bool.and_eq_true, decide_eq_true_eq] at hgate
              exact hgate.1
            have hg2 : ';' ∈ path := by
              simp only [Bool.and_eq_true, decide_eq_true_eq] at hgate
              rcases List.mem_cons.mp hgate.2 with h | h
              · exact absurd h (by decide)
              · exact h
            rw [splitParams_noop_slash path (hsemi1 hg1) (hsemi2 hg1) hg2]
          · rw [if_neg hgate]
        · rw [hneq]
          have : urlunparse sch nl ('/' :: path) [] q [] =
              urlunsplit sch nl ('/' :: path) q [] := by
            simp only [urlunparse]
            rw [if_neg (by simp)]
          rw [this]
          exact hins_eq
      · obtain rfl : path ++ ';' :: prm = pfull := by
          rw [← hpfeq, if_pos (by simp [hprm])]
        have hg1 : sch ∈ usesParams := g.params_gate hprm
        refine ⟨'/' :: path, prm, ?_, ?_⟩
        · simp only [urlparse]
          rw [hneq, hsplit]
          simp only [Option.map_some']
          rw [if_pos (show (decide (sch ∈ usesParams) &&
              decide (';' ∈ ('/' :: (path ++ ';' :: prm)))) = true from by
            simp [hg1])]
          rw [splitParams_recover_slash path prm hprmslash
            (hsemi1 hg1) (hsemi2 hg1)]
        · rw [hneq]
          have : urlunparse sch nl ('/' :: path) prm q [] =
              urlunsplit sch nl ('/' :: (path ++ ';' :: prm)) q [] := by
            simp only [urlunparse]
            rw [if_pos (by simp [hprm])]
            rfl
          rw [this]
          exact hins_eq
    · rw [if_neg hins] at hsplit
      by_cases hprm : prm = []
      · subst hprm
        obtain rfl : path = pfull := by
          rw [← hpfeq, if_neg (by simp)]
        refine ⟨path, [], ?_, hneq⟩
        simp only [urlparse]
        rw [hneq, hsplit]
        simp only [Option.map_some']
        by_cases hgate : (decide (sch ∈ usesParams) &&
            decide (';' ∈ path)) = true
        · rw [if_pos hgate]
          have hg1 : sch ∈ usesParams := by
            simp only [Bool.and_eq_true, decide_eq_true_eq] at hgate
            exact hgate.1
          have hg2 : ';' ∈ path := by
            simp only [Bool.and_eq_true, decide_eq_true_eq] at hgate
            exact hgate.2
          rw [splitParams_noop path (hsemi1 hg1) (hsemi2 hg1) hg2]
        · rw [if_neg hgate]
      · obtain rfl : path ++ ';' :: prm = pfull := by
          rw [← hpfeq, if_pos (by simp [hprm])]
        have hg1 : sch ∈ usesParams := g.params_gate hprm
        refine ⟨path, prm, ?_, rfl⟩
        simp only [urlparse]
        rw [hneq, hsplit]
        simp only [Option.map_some']
        rw [if_pos (show (decide (sch ∈ usesParams) &&
            decide (';' ∈ (path ++ ';' :: prm))) = true from by simp [hg1])]
        rw [splitParams_recover path prm hprmslash (hsemi1 hg1) (hsemi2 hg1)]
  · -- non-authority branch
    have hnl0 : nl = [] := by
      by_contra hh
      exact hauth (Or.inl hh)
    subst hnl0
    have hlpath : leadsWith path "//".data = false := by
      rcases hb : leadsWith path "//".data with _ | _
      · rfl
      · exact absurd ⟨rfl, hb⟩ g.no_shift
    have hlead2 : leadsWith pfull "//".data = false := by
      rw [← hpfeq]
      by_cases hprm : prm = []
      · rw [if_neg (by simp [hprm])]
        exact hlpath
      · rw [if_pos (by simp [hprm]),
          show ("//".data : Str) = ['/', '/'] from rfl,
          leads2_append path (';' :: prm) (by simp [leadsWith])]
        exact hlpath
    have hA2 : sch = [] ∨ sch ∉ usesNetloc := by
      by_cases hs0 : sch = []
      · exact Or.inl hs0
      · right
        intro hmem
        exact hauth (Or.inr ⟨hs0, hmem, hlead2⟩)
    have hheadc : sch = [] → ∀ h : pfull ≠ [],
        isC0OrSpace (pfull.head h) = false := by
      intro hs0
      rw [← hpfeq]
      by_cases hprm : prm = []
      · rw [if_neg (by simp [hprm])]
        intro h
        exact g.head_ok hs0 rfl h
      · rw [if_pos (by simp [hprm])]
        intro h
        cases path with
        | nil => exact (by decide : isC0OrSpace ';' = false)
        | cons a t => exact g.head_ok hs0 rfl (by simp)
    have hscheme0 : sch = [] →
        schemeSplit (pfull ++ (if q ≠ [] then '?' :: q else [])) =
          ([], pfull ++ (if q ≠ [] then '?' :: q else [])) := by
      intro hs0
      rw [← hpfeq]
      by_cases hprm : prm = []
      · rw [if_neg (by simp [hprm])]
        by_cases hq : q = []
        · rw [if_neg (by simp [hq]), List.append_nil]
          by_cases hcp : ':' ∈ path
          · exact schemeSplit_not_schemeLike (g.colon_ok hs0 rfl hcp)
          · exact schemeSplit_no_colon hcp
        · rw [if_pos (by simp [hq])]
          by_cases hcp : ':' ∈ path
          · exact schemeSplit_path_colon _ hcp (g.colon_ok hs0 rfl hcp)
          · exact schemeSplit_sep (by decide) (by decide) hcp
      · rw [if_pos (by simp [hprm])]
        by_cases hq : q = []
        · rw [if_neg (by simp [hq]), List.append_nil]
          by_cases hcp : ':' ∈ path
          · exact schemeSplit_path_colon _ hcp (g.colon_ok hs0 rfl hcp)
          · exact schemeSplit_sep (by decide) (by decide) hcp
        · rw [if_pos (by simp [hq]), List.append_assoc, List.cons_append]
          by_cases hcp : ':' ∈ path
          · exact schemeSplit_path_colon _ hcp (g.colon_ok hs0 rfl hcp)
          · exact schemeSplit_sep (by decide) (by decide) hcp
    have htabsN : ∀ ch ∈ sch ++ (pfull ++ q), isUnsafeUrlChar ch = false := by
      intro ch hc
      apply htabsM ch
      rcases List.mem_append.mp hc with h | h
      · exact Or.inl h
      rcases List.mem_append.mp h with h | h
      · exact Or.inr (Or.inr (Or.inl h))
      · exact Or.inr (Or.inr (Or.inr h))
    have hsplit := unsplit_resplit_noauth sch pfull q hsch2 hpfh hpfq hqh hq2
      htabsN hlead2 hheadc hscheme0 hA2
    by_cases hprm : prm = []
    · subst hprm
      obtain rfl : path = pfull := by
        rw [← hpfeq, if_neg (by simp)]
      refine ⟨path, [], ?_, hneq⟩
      simp only [urlparse]
      rw [hneq, hsplit]
      simp only [Option.map_some']
      by_cases hgate : (decide (sch ∈ usesParams) &&
          decide (';' ∈ path)) = true
      · rw [if_pos hgate]
        have hg1 : sch ∈ usesParams := by
          simp only [Bool.and_eq_true, decide_eq_true_eq] at hgate
          exact hgate.1
        have hg2 : ';' ∈ path := by
          simp only [Bool.and_eq_true, decide_eq_true_eq] at hgate
          exact hgate.2
        rw [splitParams_noop path (hsemi1 hg1) (hsemi2 hg1) hg2]
      · rw [if_neg hgate]
    · obtain rfl : path ++ ';' :: prm = pfull := by
        rw [← hpfeq, if_pos (by simp [hprm])]
      have hg1 : sch ∈ usesParams := g.params_gate hprm
      refine ⟨path, prm, ?_, rfl⟩
      simp only [urlparse]
      rw [hneq, hsplit]
      simp only [Option.map_some']
      rw [if_pos (show (decide (sch ∈ usesParams) &&
          decide (';' ∈ (path ++ ';' :: prm))) = true from by simp [hg1])]
      rw [splitParams_recover path prm hprmslash (hsemi1 hg1) (hsemi2 hg1)]

/-! ### What a successful parse guarantees about its components -/

theorem bool_eq_false {b : Bool} (h : ¬(b = true)) : b = false := by
  cases b
  · rfl
  · exact absurd rfl h

theorem schemeLike_lower {s : Str} (h : schemeLike s = true) :
    schemeLike (lowerStr s) = true := by
  cases s with
  | nil => exact absurd h (by simp [schemeLike])
  | cons a t =>
    simp only [schemeLike, Bool.and_eq_true] at h
    simp only [lowerStr, List.map_cons]
    simp only [schemeLike, Bool.and_eq_true]
    refine ⟨isAsciiAlpha_toLower h.1, ?_⟩
    apply List.all_eq_true.mpr
    intro x hx
    rcases List.mem_cons.mp hx with rfl | hx
    · exact schemeChar_toLower (List.all_eq_true.mp h.2 a (List.mem_cons_self a t))
    · obtain ⟨y, hy, rfl⟩ := List.mem_map.mp hx
      exact schemeChar_toLower
        (List.all_eq_true.mp h.2 y (List.mem_cons_of_mem a hy))

theorem prefix_head {p2 p : Str} (h : p2 <+: p) (h2 : p2 ≠ []) (hp : p ≠ []) :
    p2.head h2 = p.head hp := by
  obtain ⟨t, rfl⟩ := h
  cases p2 with
  | nil => exact absurd rfl h2
  | cons a b => rfl

theorem prefix_takeWhile_colon {p2 p : Str} (h : p2 <+: p) (hc : ':' ∈ p2) :
    p.takeWhile (· ≠ ':') = p2.takeWhile (· ≠ ':') := by
  obtain ⟨t, rfl⟩ := h
  exact takeWhile_append_stop t ⟨':', hc, by simp⟩

theorem schemeSplit_spec (x : Str) :
    ((schemeSplit x).1 = [] ∧ (schemeSplit x).2 = x ∧
      (':' ∈ x → schemeLike (x.takeWhile (· ≠ ':')) = false)) ∨
    (∃ pre, schemeLike pre = true ∧ (schemeSplit x).1 = lowerStr pre ∧
      List.Sublist pre x ∧ List.Sublist (schemeSplit x).2 x) := by
  simp only [schemeSplit]
  rcases hd : x.dropWhile (· ≠ ':') with _ | ⟨r, rt⟩
  · left
    refine ⟨rfl, rfl, fun hc => ?_⟩
    exact absurd ((List.dropWhile_eq_nil_iff.mp hd) ':' hc) (by simp)
  · rcases hpre : x.takeWhile (· ≠ ':') with _ | ⟨c0, pp⟩
    · left
      exact ⟨rfl, rfl, fun hc => rfl⟩
    · dsimp only
      by_cases hcond : (isAsciiAlpha c0 && (c0 :: pp).all schemeChar) = true
      · rw [if_pos hcond]
        right
        refine ⟨c0 :: pp, ?_, rfl, ?_, ?_⟩
        · simpa [schemeLike] using hcond
        · rw [← hpre]
          exact (List.takeWhile_prefix _).sublist
        · have hsuf : List.Sublist (r :: rt) x := by
            rw [← hd]
            exact (List.dropWhile_suffix _).sublist
          exact (List.tail_sublist (r :: rt)).trans hsuf
      · rw [if_neg hcond]
        left
        refine ⟨rfl, rfl, fun hc => ?_⟩
        simp only [schemeLike]
        exact bool_eq_false hcond

theorem splitParams_fst_prefix (p : Str) : (splitParams p).1 <+: p := by
  simp only [splitParams]
  by_cases hs : '/' ∈ p
  · rw [if_pos hs]
    by_cases hsemi : ';' ∈ (p.reverse.takeWhile (· ≠ '/')).reverse
    · rw [if_pos hsemi]
      dsimp only
      refine ⟨(p.reverse.takeWhile (· ≠ '/')).reverse.dropWhile (· ≠ ';'), ?_⟩
      rw [List.append_assoc, List.takeWhile_append_dropWhile]
      exact rev_take_drop (fun x => decide (x ≠ '/')) p
    · rw [if_neg hsemi]
  · rw [if_neg hs]
    exact List.takeWhile_prefix _

theorem splitParams_snd_subset (p : Str) : ∀ ch ∈ (splitParams p).2, ch ∈ p := by
  intro ch hc
  simp only [splitParams] at hc
  by_cases hs : '/' ∈ p
  · rw [if_pos hs] at hc
    by_cases hsemi : ';' ∈ (p.reverse.takeWhile (· ≠ '/')).reverse
    · rw [if_pos hsemi] at hc
      dsimp only at hc
      have h1 : ch ∈ (p.reverse.takeWhile (· ≠ '/')).reverse :=
        ((List.tail_sublist _).trans (List.dropWhile_sublist _)).subset hc
      have h2 : ch ∈ p.reverse :=
        (List.takeWhile_prefix _).sublist.subset (List.mem_reverse.mp h1)
      exact List.mem_reverse.mp h2
    · rw [if_neg hsemi] at hc
      simp at hc
  · rw [if_neg hs] at hc
    exact ((List.tail_sublist _).trans (List.dropWhile_sublist _)).subset hc

theorem splitParams_snd_no_slash (p : Str) : '/' ∉ (splitParams p).2 := by
  intro hc
  simp only [splitParams] at hc
  by_cases hs : '/' ∈ p
  · rw [if_pos hs] at hc
    by_cases hsemi : ';' ∈ (p.reverse.takeWhile (· ≠ '/')).reverse
    · rw [if_pos hsemi] at hc
      dsimp only at hc
      have h1 : '/' ∈ (p.reverse.takeWhile (· ≠ '/')).reverse :=
        ((List.tail_sublist _).trans (List.dropWhile_sublist _)).subset hc
      have h2 := List.mem_takeWhile_imp (List.mem_reverse.mp h1)
      simp at h2
    · rw [if_neg hsemi] at hc
      simp at hc
  · rw [if_neg hs] at hc
    exact hs (((List.tail_sublist _).trans (List.dropWhile_sublist _)).subset hc)

theorem splitParams_post (p : Str) :
    ('/' ∈ (splitParams p).1 → ';' ∉ afterLastSlash (splitParams p).1) ∧
    ('/' ∉ (splitParams p).1 → ';' ∉ (splitParams p).1) := by
  simp only [splitParams]
  by_cases hs : '/' ∈ p
  · rw [if_pos hs]
    by_cases hsemi : ';' ∈ (p.reverse.takeWhile (· ≠ '/')).reverse
    · rw [if_pos hsemi]
      dsimp only
      rcases hdw : p.reverse.dropWhile (· ≠ '/') with _ | ⟨d0, dt⟩
      · exact absurd (List.dropWhile_eq_nil_iff.mp hdw '/'
          (List.mem_reverse.mpr hs)) (by simp)
      · have hd0 : d0 = '/' := by
          have := dropWhile_head_false hdw
          simpa using this
        subst hd0
        have ha1 : ∀ ch ∈ (p.reverse.takeWhile (· ≠ '/')).reverse.takeWhile
            (· ≠ ';'), ch ≠ '/' ∧ ch ≠ ';' := by
          intro ch hc
          constructor
          · have h1 : ch ∈ (p.reverse.takeWhile (· ≠ '/')).reverse :=
              (List.takeWhile_prefix _).sublist.subset hc
            have h2 := List.mem_takeWhile_imp (List.mem_reverse.mp h1)
            simpa using h2
          · have := List.mem_takeWhile_imp hc
            simpa using this
        have hall : afterLastSlash (('/' :: dt).reverse ++
            (p.reverse.takeWhile (· ≠ '/')).reverse.takeWhile (· ≠ ';')) =
            (p.reverse.takeWhile (· ≠ '/')).reverse.takeWhile (· ≠ ';') := by
          rw [List.reverse_cons]
          simp only [afterLastSlash]
          rw [List.append_assoc, List.singleton_append, rev_append_cons]
          have hmem : ∀ a ∈ ((p.reverse.takeWhile (· ≠ '/')).reverse.takeWhile
              (· ≠ ';')).reverse, (decide ¬(a = '/')) = true := by
            intro a ha
            simp only [decide_eq_true_eq]
            exact (ha1 a (List.mem_reverse.mp ha)).1
          rw [takeWhile_append_all hmem, List.takeWhile_cons,
            if_neg (by simp), List.append_nil, List.reverse_reverse]
        constructor
        · intro _
          rw [hall]
          intro hcc
          exact (ha1 ';' hcc).2 rfl
        · intro hno
          exfalso
          apply hno
          rw [List.reverse_cons]
          exact List.mem_append.mpr (Or.inl (List.mem_append.mpr
            (Or.inr (List.mem_singleton.mpr rfl))))
    · rw [if_neg hsemi]
      dsimp only
      exact ⟨fun _ => hsemi, fun hno => absurd hs hno⟩
  · rw [if_neg hs]
    dsimp only
    constructor
    · intro hsl
      exfalso
      exact hs ((List.takeWhile_prefix _).sublist.subset hsl)
    · intro _ hcc
      have := List.mem_takeWhile_imp hcc
      simp at this

theorem splitParams_fst_slash (p : Str)
    (h : p = [] ∨ leadsWith p "/".data = true) :
    (splitParams p).1 = [] ∨ leadsWith (splitParams p).1 "/".data = true := by
  rcases h with rfl | h
  · left
    simp [splitParams]
  · obtain ⟨t, rfl⟩ := leads1_shape h
    right
    have hpre := splitParams_fst_prefix ('/' :: t)
    rcases hfst : (splitParams ('/' :: t)).1 with _ | ⟨f0, ft⟩
    · -- a nonempty prefix claim: the first component keeps the leading slash
      -- show this case cannot happen
      exfalso
      rw [hfst] at hpre
      -- [] is a prefix of anything, no contradiction from hpre; compute directly
      have : '/' ∈ (splitParams ('/' :: t)).1 ∨
          (splitParams ('/' :: t)).1 = [] := Or.inr hfst
      -- compute the first component head directly
      revert hfst
      simp only [splitParams]
      rw [if_pos (List.mem_cons_self '/' t)]
      by_cases hsemi : ';' ∈ (('/' :: t).reverse.takeWhile (· ≠ '/')).reverse
      · rw [if_pos hsemi]
        dsimp only
        intro hfst
        rcases hdw : ('/' :: t).reverse.dropWhile (· ≠ '/') with _ | ⟨d0, dt⟩
        · exact absurd (List.dropWhile_eq_nil_iff.mp hdw '/'
            (List.mem_reverse.mpr (List.mem_cons_self '/' t))) (by simp)
        · rw [hdw, List.reverse_cons] at hfst
          have := congrArg List.length hfst
          simp at this
      · rw [if_neg hsemi]
        dsimp only
        intro hfst
        cases hfst
    · rw [hfst] at hpre
      obtain ⟨s, hsx⟩ := hpre
      have : f0 = '/' := by
        have := congrArg (fun l => l.head?) hsx
        simpa using this
      subst this
      exact leads1_of_cons

theorem schemeLike_head_bad {c : Char} {t : Str} (h : isAsciiAlpha c = false) :
    schemeLike (c :: t) = false := by
  simp [schemeLike, h]

theorem urlsplit_facts {u : Str} {r : ParseResult} (hsp : urlsplit u = some r) :
    (r.scheme = [] ∨ (schemeLike r.scheme = true ∧ lowerStr r.scheme = r.scheme)) ∧
    (∀ ch ∈ r.netloc, netlocEnd ch = false) ∧
    (('[' ∈ r.netloc) ↔ (']' ∈ r.netloc)) ∧
    ('#' ∉ r.path) ∧ ('?' ∉ r.path) ∧
    r.params = [] ∧
    (r.netloc = [] ∨ r.path = [] ∨ leadsWith r.path "/".data = true) ∧
    (r.scheme = [] → ':' ∈ r.path →
      schemeLike (r.path.takeWhile (· ≠ ':')) = false) ∧
    (∀ ch ∈ r.scheme ++ r.netloc ++ r.path, isUnsafeUrlChar ch = false) ∧
    (r.scheme = [] → ∀ h : r.path ≠ [], isC0OrSpace (r.path.head h) = false) := by
  obtain ⟨w, hw⟩ : ∃ w, (u.dropWhile isC0OrSpace).filter
      (fun c => !isUnsafeUrlChar c) = w := ⟨_, rfl⟩
  have hwmem : ∀ ch ∈ w, isUnsafeUrlChar ch = false := by
    intro ch hc
    rw [← hw] at hc
    have := List.of_mem_filter hc
    simpa using this
  have hwhead : ∀ h : w ≠ [], isC0OrSpace (w.head h) = false := by
    rw [← hw]
    rcases hdw : u.dropWhile isC0OrSpace with _ | ⟨h0, t0⟩
    · intro h
      exact absurd rfl h
    · have hh0 : isC0OrSpace h0 = false := dropWhile_head_false hdw
      have hh0u : isUnsafeUrlChar h0 = false := by
        rw [← Bool.not_eq_true, isUnsafeUrlChar_iff]
        simp only [isC0OrSpace, decide_eq_false_iff_not] at hh0
        omega
      rw [List.filter_cons, if_pos (by simp [hh0u])]
      intro h
      exact hh0
  simp only [urlsplit] at hsp
  rw [hw] at hsp
  have hspec := schemeSplit_spec w
  rcases hps : schemeSplit w with ⟨s1, u2⟩
  rw [hps] at hspec hsp
  dsimp only at hspec hsp
  have hu2w : List.Sublist u2 w := by
    rcases hspec with ⟨_, h2, _⟩ | ⟨pre, _, _, _, h2⟩
    · rw [h2]
    · exact h2
  have hscheme_ok : s1 = [] ∨ (schemeLike s1 = true ∧ lowerStr s1 = s1) := by
    rcases hspec with ⟨h1, _, _⟩ | ⟨pre, hlike, h1, _, _⟩
    · exact Or.inl h1
    · refine Or.inr ⟨?_, ?_⟩
      · rw [h1]
        exact schemeLike_lower hlike
      · rw [h1]
        exact lowerStr_idem pre
  have hs1mem : ∀ ch ∈ s1, isUnsafeUrlChar ch = false := by
    intro ch hc
    rcases hspec with ⟨h1, _, _⟩ | ⟨pre, _, h1, hpw, _⟩
    · rw [h1] at hc
      simp at hc
    · rw [h1] at hc
      obtain ⟨y, hy, rfl⟩ := List.mem_map.mp hc
      rw [isUnsafeUrlChar_toLower]
      exact hwmem y (hpw.subset hy)
  by_cases hlead : leadsWith u2 "//".data = true
  · rw [if_pos hlead] at hsp
    obtain ⟨netl, hnetl⟩ : ∃ x, (u2.drop 2).takeWhile (fun c => !netlocEnd c)
      = x := ⟨_, rfl⟩
    obtain ⟨u3, hu3⟩ : ∃ x, (u2.drop 2).dropWhile (fun c => !netlocEnd c)
      = x := ⟨_, rfl⟩
    rw [hnetl, hu3] at hsp
    by_cases hbrc : ((decide ('[' ∈ netl) && decide (']' ∉ netl)) ||
        (decide (']' ∈ netl) && decide ('[' ∉ netl))) = true
    · rw [if_pos hbrc] at hsp
      exact absurd hsp (by simp)
    · rw [if_neg hbrc] at hsp
      obtain rfl := (Option.some.injEq _ _).mp hsp
      have hnetlw : List.Sublist netl w := by
        rw [← hnetl]
        exact ((List.takeWhile_prefix _).sublist.trans
          (List.drop_sublist 2 u2)).trans hu2w
      have hu3w : List.Sublist u3 w := by
        rw [← hu3]
        exact ((List.dropWhile_sublist _).trans
          (List.drop_sublist 2 u2)).trans hu2w
      have hpathu3 : List.Sublist ((u3.takeWhile (· ≠ '#')).takeWhile
          (· ≠ '?')) u3 :=
        ((List.takeWhile_prefix _).trans (List.takeWhile_prefix _)).sublist
      have hshape : (u3.takeWhile (· ≠ '#')).takeWhile (· ≠ '?') = [] ∨
          ∃ t, (u3.takeWhile (· ≠ '#')).takeWhile (· ≠ '?') = '/' :: t := by
        rcases hu3s : u3 with _ | ⟨d, dt⟩
        · exact Or.inl rfl
        · have hd : netlocEnd d = true := by
            rw [hu3s] at hu3
            have := dropWhile_head_false hu3
            simpa using this
          simp only [netlocEnd, Bool.or_eq_true, decide_eq_true_eq] at hd
          rcases hd with (rfl | rfl) | rfl
          · right
            rw [List.takeWhile_cons, if_pos (by simp), List.takeWhile_cons,
              if_pos (by simp)]
            exact ⟨_, rfl⟩
          · left
            rw [List.takeWhile_cons, if_pos (by simp), List.takeWhile_cons,
              if_neg (by simp)]
          · left
            rw [List.takeWhile_cons, if_neg (by simp)]
            rfl
      refine ⟨hscheme_ok, ?_, ?_, ?_, ?_, rfl, ?_, ?_, ?_, ?_⟩
      · intro ch hc
        rw [← hnetl] at hc
        have := List.mem_takeWhile_imp hc
        simpa using this
      · constructor
        · intro h1
          by_contra h2
          exact hbrc (by simp [h1, h2])
        · intro h1
          by_contra h2
          exact hbrc (by simp [h1, h2])
      · intro hc
        have h1 : '#' ∈ u3.takeWhile (· ≠ '#') :=
          (List.takeWhile_prefix _).sublist.subset hc
        have := List.mem_takeWhile_imp h1
        simp at this
      · intro hc
        have := List.mem_takeWhile_imp hc
        simp at this
      · rcases hshape with h | ⟨t, ht⟩
        · exact Or.inr (Or.inl h)
        · refine Or.inr (Or.inr ?_)
          rw [ht]
          exact leads1_of_cons
      · intro hs0 hc
        rcases hshape with h | ⟨t, ht⟩
        · rw [h] at hc
          simp at hc
        · rw [ht, List.takeWhile_cons, if_pos (by simp)]
          exact schemeLike_head_bad (by decide)
      · intro ch hc
        rcases List.mem_append.mp hc with h | h
        · rcases List.mem_append.mp h with h | h
          · exact hs1mem ch h
          · exact hwmem ch (hnetlw.subset h)
        · exact hwmem ch ((hpathu3.trans hu3w).subset h)
      · intro hs0
        rcases hshape with h | ⟨t, ht⟩
        · rw [h]
          intro hne
          exact absurd rfl hne
        · rw [ht]
          intro hne
          exact (by decide : isC0OrSpace '/' = false)
  · rw [if_neg hlead] at hsp
    obtain rfl := (Option.some.injEq _ _).mp hsp
    have hpathpre : ((u2.takeWhile (· ≠ '#')).takeWhile (· ≠ '?')) <+: u2 :=
      (List.takeWhile_prefix _).trans (List.takeWhile_prefix _)
    have hleft : s1 = [] → (u2 = w ∧
        (':' ∈ w → schemeLike (w.takeWhile (· ≠ ':')) = false)) := by
      intro hs0
      rcases hspec with ⟨_, h2, h3⟩ | ⟨pre, hlike, h1, _, _⟩
      · exact ⟨h2, h3⟩
      · exfalso
        cases pre with
        | nil => simp [schemeLike] at hlike
        | cons a t =>
          rw [hs0] at h1
          simp [lowerStr] at h1
    refine ⟨hscheme_ok, ?_, ?_, ?_, ?_, rfl, Or.inl rfl, ?_, ?_, ?_⟩
    · intro ch hc
      simp at hc
    · constructor
      · intro h
        simp at h
      · intro h
        simp at h
    · intro hc
      have h1 : '#' ∈ u2.takeWhile (· ≠ '#') :=
        (List.takeWhile_prefix _).sublist.subset hc
      have := List.mem_takeWhile_imp h1
      simp at this
    · intro hc
      have := List.mem_takeWhile_imp hc
      simp at this
    · intro hs0 hc
      dsimp only at hc ⊢
      obtain ⟨hu2eq, hcol⟩ := hleft hs0
      have hpp2 : ((u2.takeWhile (· ≠ '#')).takeWhile (· ≠ '?')) <+: w := by
        rw [← hu2eq]
        exact hpathpre
      have hcw : ':' ∈ w := hpp2.sublist.subset hc
      rw [← prefix_takeWhile_colon hpp2 hc]
      exact hcol hcw
    · intro ch hc
      rcases List.mem_append.mp hc with h | h
      · rcases List.mem_append.mp h with h | h
        · exact hs1mem ch h
        · simp at h
      · exact hwmem ch ((hpathpre.sublist.trans hu2w).subset h)
    · intro hs0
      obtain ⟨hu2eq, _⟩ := hleft hs0
      dsimp only
      intro hne
      have hwne : u2 ≠ [] := by
        intro h0
        rw [h0] at hne
        exact hne rfl
      have hwne2 : w ≠ [] := by
        rw [← hu2eq]
        exact hwne
      have hpp2 : ((u2.takeWhile (· ≠ '#')).takeWhile (· ≠ '?')) <+: w := by
        rw [← hu2eq]
        exact hpathpre
      rw [prefix_head hpp2 hne hwne2]
      exact hwhead hwne2

theorem afterLastSlash_subset (p : Str) : ∀ ch ∈ afterLastSlash p, ch ∈ p := by
  intro ch hc
  simp only [afterLastSlash] at hc
  have h1 := List.mem_reverse.mp hc
  have h2 := (List.takeWhile_prefix _).sublist.subset h1
  exact List.mem_reverse.mp h2

theorem parse_good {u : Str} {c0 : ParseResult}
    (hp : urlparse u = some c0)
    (hshift : c0.netloc ≠ [] ∨ leadsWith c0.path "//".data = false) :
    GoodComps ⟨lowerStr c0.scheme, lowerStr c0.netloc, c0.path, c0.params,
      urlencode ((parse_qsl c0.query).filter
        (fun kv => decide (kv.1 ∉ TRACKING_KEYS))), []⟩ := by
  simp only [urlparse] at hp
  rcases hsp : urlsplit u with _ | r
  · rw [hsp] at hp
    simp at hp
  · rw [hsp] at hp
    simp only [Option.map_some'] at hp
    obtain rfl := (Option.some.injEq _ _).mp hp
    obtain ⟨f1, f2, f3, f4, f5, f6, f7, f8, f9, f10⟩ := urlsplit_facts hsp
    have hGschemeEq : lowerStr r.scheme = r.scheme := by
      rcases f1 with h | ⟨_, h2⟩
      · rw [h]
        rfl
      · exact h2
    have hGnlc : ∀ ch ∈ lowerStr r.netloc, netlocEnd ch = false := by
      intro ch hc
      obtain ⟨y, hy, rfl⟩ := List.mem_map.mp hc
      rw [netlocEnd_toLower]
      exact f2 y hy
    have hGbrk : ('[' ∈ lowerStr r.netloc) ↔ (']' ∈ lowerStr r.netloc) := by
      rw [mem_lowerStr_symbol _ (by decide) (by decide),
        mem_lowerStr_symbol _ (by decide) (by decide)]
      exact f3
    have hGnl0 : lowerStr r.netloc = [] → r.netloc = [] :=
      fun h => List.map_eq_nil_iff.mp h
    have hGnltabs : ∀ ch ∈ lowerStr r.netloc, isUnsafeUrlChar ch = false := by
      intro ch hc
      obtain ⟨y, hy, rfl⟩ := List.mem_map.mp hc
      rw [isUnsafeUrlChar_toLower]
      exact f9 y (by simp [hy])
    by_cases hgate : (decide (r.scheme ∈ usesParams) &&
        decide (';' ∈ r.path)) = true
    · rw [if_pos hgate] at hshift ⊢
      dsimp only at hshift ⊢
      rw [hGschemeEq]
      have hg1 : r.scheme ∈ usesParams := by
        simp only [Bool.and_eq_true, decide_eq_true_eq] at hgate
        exact hgate.1
      have hpp := splitParams_fst_prefix r.path
      refine ⟨f1, hGnlc, hGbrk, lowerStr_idem _, ?_, ?_, ?_, ?_, ?_, ?_, ?_,
        ?_, urlencode_no_hash _, urlencode_no_qmark _, query_refold _, rfl,
        ?_, ?_⟩
      · intro hc
        exact f4 (hpp.sublist.subset hc)
      · intro hc
        exact f5 (hpp.sublist.subset hc)
      · intro hnl
        have hne : r.netloc ≠ [] := fun h => hnl (by rw [h]; rfl)
        rcases f7 with h | h | h
        · exact absurd h hne
        · exact splitParams_fst_slash r.path (Or.inl h)
        · exact splitParams_fst_slash r.path (Or.inr h)
      · rintro ⟨h1, h2⟩
        rcases hshift with h | h
        · exact h (hGnl0 h1)
        · rw [h] at h2
          cases h2
      · intro hs0 _ hc
        have hs0' : r.scheme = [] := hs0
        have hcp : ':' ∈ r.path := hpp.sublist.subset hc
        rw [← prefix_takeWhile_colon hpp hc]
        exact f8 hs0' hcp
      · intro _
        exact hg1
      · intro ch hc
        have hmem := splitParams_snd_subset r.path ch hc
        refine ⟨fun he => splitParams_snd_no_slash r.path (he ▸ hc), ?_, ?_⟩
        · exact fun he => f5 (he ▸ hmem)
        · exact fun he => f4 (he ▸ hmem)
      · intro _
        exact splitParams_post r.path
      · intro ch hc
        rcases List.mem_append.mp hc with h | h
        · rcases List.mem_append.mp h with h | h
          · rcases List.mem_append.mp h with h | h
            · rcases List.mem_append.mp h with h | h
              · exact f9 ch (by simp [h])
              · exact hGnltabs ch h
            · exact f9 ch (by simp [hpp.sublist.subset h])
          · exact f9 ch (by simp [splitParams_snd_subset r.path ch h])
        · exact urlencode_no_tabs _ ch h
      · intro hs0 _ hne
        have hrne : r.path ≠ [] := by
          intro h0
          rw [h0] at hne
          exact hne rfl
        rw [prefix_head hpp hne hrne]
        exact f10 hs0 hrne
    · rw [if_neg hgate] at hshift ⊢
      rw [hGschemeEq]
      have hals := afterLastSlash_subset r.path
      refine ⟨f1, hGnlc, hGbrk, lowerStr_idem _, f4, f5, ?_, ?_, ?_, ?_, ?_,
        ?_, urlencode_no_hash _, urlencode_no_qmark _, query_refold _, rfl,
        ?_, ?_⟩
      · intro hnl
        have hne : r.netloc ≠ [] := fun h => hnl (by rw [h]; rfl)
        rcases f7 with h | h | h
        · exact absurd h hne
        · exact Or.inl h
        · exact Or.inr h
      · rintro ⟨h1, h2⟩
        rcases hshift with h | h
        · exact h (hGnl0 h1)
        · rw [h] at h2
          cases h2
      · intro hs0 _ hc
        exact f8 hs0 hc
      · intro hne
        rw [f6] at hne
        exact absurd rfl hne
      · intro ch hc
        rw [f6] at hc
        simp at hc
      · intro hu
        have hnosemi : ';' ∉ r.path := by
          intro hmem
          exact hgate (by simp [hu, hmem])
        exact ⟨fun _ hin => hnosemi (hals ';' hin), fun _ => hnosemi⟩
      · intro ch hc
        rcases List.mem_append.mp hc with h | h
        · rcases List.mem_append.mp h with h | h
          · rcases List.mem_append.mp h with h | h
            · rcases List.mem_append.mp h with h | h
              · exact f9 ch (by simp [h])
              · exact hGnltabs ch h
            · exact f9 ch (by simp [h])
          · rw [f6] at h
            simp at h
        · exact urlencode_no_tabs _ ch h
      · intro hs0 _ hne
        exact f10 hs0 hne

/-- C8 (counterexample): `normalize_url` is not idempotent on every input.
On `"a #b"` the first pass keeps the path `"a "` (the fragment split leaves a
trailing space that the initial `str.strip` could not see), and the second
pass strips that space, so the two outputs differ. -/
theorem normalize_url_not_idempotent :
    normalize_url (normalize_url "a #b".data) ≠ normalize_url "a #b".data := by
  decide

/-- C8 (amended): `normalize_url` is idempotent on every input whose first
normalization is already whitespace-stripped and whose parse does not produce
an empty authority together with a path starting in `//` (the one shape whose
reassembly drops the `//` marker and shifts path text into the netloc on a
reparse). -/
theorem normalize_url_idempotent_on (u : Str)
    (h1 : pyStrip (normalize_url u) = normalize_url u)
    (h2 : noShiftInput u = true) :
    normalize_url (normalize_url u) = normalize_url u := by
  by_cases hr : pyStrip u = []
  · have hn : normalize_url u = [] := by
      simp only [normalize_url]
      rw [hr, if_pos rfl]
    rw [hn]
    rfl
  · rcases hpu : urlparse (pyStrip u) with _ | c0
    · have hn : normalize_url u = pyStrip u := by
        simp only [normalize_url]
        rw [if_neg hr, hpu]
      rw [hn]
      simp only [normalize_url]
      rw [pyStrip_idem, if_neg hr, hpu]
    · have hn : normalize_url u = urlunparse (lowerStr c0.scheme)
          (lowerStr c0.netloc) c0.path c0.params
          (urlencode ((parse_qsl c0.query).filter
            (fun kv => decide (kv.1 ∉ TRACKING_KEYS)))) [] := by
        simp only [normalize_url]
        rw [if_neg hr, hpu]
      have hshift : c0.netloc ≠ [] ∨ leadsWith c0.path "//".data = false := by
        simp only [noShiftInput] at h2
        rw [hpu] at h2
        simpa [Bool.or_eq_true, Bool.not_eq_true', decide_eq_true_eq] using h2
      have hg := parse_good hpu hshift
      obtain ⟨p2, pr2, hparse, hrebuild⟩ := urlparse_roundtrip _ hg
      dsimp only at hparse hrebuild
      rw [hn] at h1 ⊢
      simp only [normalize_url]
      rw [h1]
      by_cases hN : (urlunparse (lowerStr c0.scheme) (lowerStr c0.netloc)
          c0.path c0.params (urlencode ((parse_qsl c0.query).filter
            (fun kv => decide (kv.1 ∉ TRACKING_KEYS)))) []) = []
      · rw [if_pos hN]
      · rw [if_neg hN, hparse]
        dsimp only
        rw [lowerStr_idem, lowerStr_idem, query_refold]
        exact hrebuild

/-- Witness for C8's amended theorem: a concrete mixed-case URL with a
tracking parameter satisfies both side conditions, and normalizing its
normalization is a fixed point. -/
theorem normalize_url_idempotent_on_witness :
    pyStrip (normalize_url "HTTP://EX.com/a?utm_source=1&x=2".data) =
      normalize_url "HTTP://EX.com/a?utm_source=1&x=2".data ∧
    noShiftInput "HTTP://EX.com/a?utm_source=1&x=2".data = true ∧
    normalize_url (normalize_url "HTTP://EX.com/a?utm_source=1&x=2".data) =
      normalize_url "HTTP://EX.com/a?utm_source=1&x=2".data :=
  ⟨by decide, by decide,
    normalize_url_idempotent_on _ (by decide) (by decide)⟩

/-- Witness for C7 on a concrete two-item run. -/
theorem paged_ranks_strictly_increasing_witness :
    ∃ pre : List SearchItem,
      pagedGo smallBackend 3 ((max 1 (2 : Int)).toNat) 10 [] 1 1 [] =
        (.ok pre, [(1, 2)]) ∧
      smallResultList = dedup_results pre ∧
      pre.map SearchItem.rank = List.range' 1 pre.length ∧
      List.Pairwise (· < ·) (smallResultList.map SearchItem.rank) ∧
      (smallResultList.map SearchItem.rank).Nodup :=
  paged_ranks_strictly_increasing smallBackend 2 3 smallResultList [(1, 2)]
    (by decide)

end ThesisDork
